import Mathlib

/-!
Verification development for the `eel` editor-core library.

The library is a layered abstraction over line-addressed text buffers with
marks, regions and cursors (crate `eel`, directory `src/core`).  The concrete
text storage and the extmark drift are delegated to the host editor
(`src/nvim`); where a definition embeds that host-side behaviour it is marked
`Modelled from the spec:` in its doc comment.  Everything else is translated
from the Rust sources (`src/core/src/position.rs`, `buffer.rs`, `cursor.rs`,
`region/mod.rs`, `region/cursor.rs`).

Lines are modelled as `List Char`; a buffer is its list of lines, and the
serialized content is the lines joined with `'\n'` exactly as
`get_content` joins them in `buffer.rs`.
-/

deriving instance DecidableEq for Except

namespace Eel

/-- `Position` from `src/core/src/position.rs`: a 0-indexed `(row, col)`
coordinate pair. -/
structure Position where
  row : Nat
  col : Nat
deriving DecidableEq, Repr

namespace Position

/-- `Position::new`. -/
def mk' (row col : Nat) : Position := ⟨row, col⟩

/-- `Position::origin`. -/
def origin : Position := ⟨0, 0⟩

/-- `Position::next_col`. -/
def nextCol (p : Position) : Position := ⟨p.row, p.col + 1⟩

/-- `Position::next_row`. -/
def nextRow (p : Position) : Position := ⟨p.row + 1, p.col⟩

/-- `Position::prev_col` (saturating). -/
def prevCol (p : Position) : Position := ⟨p.row, p.col - 1⟩

/-- `Position::prev_row` (saturating). -/
def prevRow (p : Position) : Position := ⟨p.row - 1, p.col⟩

/-- `Position::offset` from `position.rs`: if the delta is on row 0 the
columns add, otherwise the delta's column replaces the base column. -/
def offset (p d : Position) : Position :=
  if d.row = 0 then ⟨p.row, p.col + d.col⟩ else ⟨p.row + d.row, d.col⟩

/-- Strict lexicographic order on positions (Rust `PartialOrd` derive). -/
def ltb (p q : Position) : Bool :=
  p.row < q.row || (p.row == q.row && p.col < q.col)

/-- Lexicographic order on positions (Rust `PartialOrd` derive). -/
def leb (p q : Position) : Bool :=
  p.row < q.row || (p.row == q.row && p.col ≤ q.col)

end Position

/-- A buffer line: a sequence of code units (the Rust side uses `String`
slices split on `'\n'`). -/
abbrev Line := List Char

/-- Join lines with `'\n'`, as `get_content` does via `join("\n")`. -/
def joinNL : List Line → Line
  | [] => []
  | [l] => l
  | l :: ls => l ++ '\n' :: joinNL ls

/-- Split a character sequence on `'\n'`, as Rust's `str::split('\n')`:
always yields at least one (possibly empty) segment. -/
def splitNL : Line → List Line
  | [] => [[]]
  | c :: cs =>
    if c = '\n' then [] :: splitNL cs
    else
      match splitNL cs with
      | [] => [[c]]
      | l :: ls => (c :: l) :: ls

/-- Seam concatenation of two line lists: the last line of the first glues
onto the first line of the second.  `splitNL` maps `++` to `glue`. -/
def glue : List Line → List Line → List Line
  | [], ms => ms
  | [l], [] => [l]
  | [l], m :: ms => (l ++ m) :: ms
  | l :: ls, ms => l :: glue ls ms

theorem splitNL_ne_nil (u : Line) : splitNL u ≠ [] := by
  cases u with
  | nil => simp [splitNL]
  | cons c cs =>
    simp only [splitNL]
    split
    · simp
    · split <;> simp

theorem splitNL_no_nl (u : Line) : ∀ l ∈ splitNL u, '\n' ∉ l := by
  induction u with
  | nil => simp [splitNL]
  | cons c cs ih =>
    simp only [splitNL]
    split
    · intro l hl
      rcases List.mem_cons.1 hl with h | h
      · subst h; simp
      · exact ih l h
    · rename_i hc
      cases hsp : splitNL cs with
      | nil => exact absurd hsp (splitNL_ne_nil cs)
      | cons l ls =>
        intro m hm
        rcases List.mem_cons.1 hm with h | h
        · subst h
          simp only [List.mem_cons]
          push_neg
          refine ⟨fun h => hc h.symm, ?_⟩
          have := ih l (by rw [hsp]; exact List.mem_cons_self _ _)
          exact this
        · exact ih m (by rw [hsp]; exact List.mem_cons_of_mem _ h)

theorem glue_cons (l : Line) (ls ms : List Line) (h : ls ≠ []) :
    glue (l :: ls) ms = l :: glue ls ms := by
  cases ls with
  | nil => exact absurd rfl h
  | cons a as => rfl

theorem glue_single (l : Line) (ms : List Line) (h : ms ≠ []) :
    glue [l] ms = (l ++ ms.headD []) :: ms.tail := by
  cases ms with
  | nil => exact absurd rfl h
  | cons m ms => rfl

theorem splitNL_cons_nl (w : Line) : splitNL ('\n' :: w) = [] :: splitNL w := by
  simp [splitNL]

theorem splitNL_cons_ne (c : Char) (w : Line) (hc : ¬c = '\n') :
    splitNL (c :: w) = (c :: (splitNL w).headD []) :: (splitNL w).tail := by
  simp only [splitNL, if_neg hc]
  cases hw : splitNL w with
  | nil => exact absurd hw (splitNL_ne_nil w)
  | cons l ls => rfl

theorem splitNL_append (u v : Line) :
    splitNL (u ++ v) = glue (splitNL u) (splitNL v) := by
  induction u with
  | nil =>
    cases hv : splitNL v with
    | nil => exact absurd hv (splitNL_ne_nil v)
    | cons m ms => simp [splitNL, glue, hv]
  | cons c cs ih =>
    by_cases hc : c = '\n'
    · subst hc
      rw [List.cons_append, splitNL_cons_nl, splitNL_cons_nl, ih]
      rw [glue_cons _ _ _ (splitNL_ne_nil cs)]
    · rw [List.cons_append, splitNL_cons_ne c _ hc, splitNL_cons_ne c _ hc, ih]
      cases hcs : splitNL cs with
      | nil => exact absurd hcs (splitNL_ne_nil cs)
      | cons l ls =>
        cases hv : splitNL v with
        | nil => exact absurd hv (splitNL_ne_nil v)
        | cons m ms =>
          cases ls with
          | nil => simp [glue]
          | cons l2 ls2 =>
            simp only [List.headD_cons, List.tail_cons]
            rw [glue_cons l (l2 :: ls2) (m :: ms) (by simp),
              glue_cons (c :: l) (l2 :: ls2) (m :: ms) (by simp)]
            simp

theorem joinNL_cons (l : Line) (ls : List Line) (h : ls ≠ []) :
    joinNL (l :: ls) = l ++ '\n' :: joinNL ls := by
  cases ls with
  | nil => exact absurd rfl h
  | cons a as => rfl

theorem joinNL_splitNL (u : Line) : joinNL (splitNL u) = u := by
  induction u with
  | nil => rfl
  | cons c cs ih =>
    by_cases hc : c = '\n'
    · subst hc
      rw [splitNL_cons_nl, joinNL_cons _ _ (splitNL_ne_nil cs), ih]
      rfl
    · rw [splitNL_cons_ne c cs hc]
      cases hcs : splitNL cs with
      | nil => exact absurd hcs (splitNL_ne_nil cs)
      | cons l ls =>
        rw [hcs] at ih
        cases ls with
        | nil =>
          simp only [joinNL] at ih ⊢
          simp [ih]
        | cons l2 ls2 =>
          rw [joinNL_cons _ _ (by simp)] at ih
          simp only [List.headD, List.tail]
          rw [joinNL_cons _ _ (by simp)]
          simp [ih]

theorem splitNL_of_no_nl (u : Line) (h : '\n' ∉ u) : splitNL u = [u] := by
  induction u with
  | nil => rfl
  | cons c cs ih =>
    simp only [List.mem_cons] at h
    push_neg at h
    have hcn : ¬c = '\n' := fun hceq => h.1 hceq.symm
    rw [splitNL_cons_ne c cs hcn, ih h.2]
    rfl

theorem splitNL_joinNL (ls : List Line) (hne : ls ≠ [])
    (hnl : ∀ l ∈ ls, '\n' ∉ l) : splitNL (joinNL ls) = ls := by
  induction ls with
  | nil => exact absurd rfl hne
  | cons l ls ih =>
    cases ls with
    | nil =>
      simp only [joinNL]
      exact splitNL_of_no_nl l (hnl l (List.mem_cons_self _ _))
    | cons l2 ls2 =>
      rw [joinNL_cons _ _ (by simp)]
      rw [splitNL_append]
      rw [splitNL_of_no_nl l (hnl l (List.mem_cons_self _ _))]
      have : splitNL ('\n' :: joinNL (l2 :: ls2)) = [] :: splitNL (joinNL (l2 :: ls2)) := by
        simp [splitNL]
      rw [this]
      rw [ih (by simp) (fun m hm => hnl m (List.mem_cons_of_mem _ hm))]
      simp [glue]

theorem glue_ne_nil (ls ms : List Line) (h : ls ≠ []) : glue ls ms ≠ [] := by
  cases ls with
  | nil => exact absurd rfl h
  | cons l ls =>
    cases ls with
    | nil =>
      cases ms with
      | nil => simp [glue]
      | cons m ms => simp [glue]
    | cons l2 ls2 => rw [glue_cons _ _ _ (by simp)]; simp

theorem glue_eq (ls ms : List Line) (hls : ls ≠ []) (hms : ms ≠ []) :
    glue ls ms = ls.dropLast ++ (ls.getLastD [] ++ ms.headD []) :: ms.tail := by
  induction ls with
  | nil => exact absurd rfl hls
  | cons l ls ih =>
    cases ls with
    | nil =>
      cases ms with
      | nil => exact absurd rfl hms
      | cons m ms' => simp [glue]
    | cons l2 ls2 =>
      rw [glue_cons _ _ _ (by simp), ih (by simp)]
      simp

theorem joinNL_glue (ls ms : List Line) :
    joinNL (glue ls ms) = joinNL ls ++ joinNL ms := by
  induction ls with
  | nil => simp [glue, joinNL]
  | cons l ls ih =>
    cases ls with
    | nil =>
      cases ms with
      | nil => simp [glue, joinNL]
      | cons m ms' =>
        cases ms' with
        | nil => simp [glue, joinNL]
        | cons m2 ms2 =>
          show joinNL ((l ++ m) :: m2 :: ms2) = joinNL [l] ++ joinNL (m :: m2 :: ms2)
          rw [joinNL_cons (l ++ m) (m2 :: ms2) (by simp),
            joinNL_cons m (m2 :: ms2) (by simp)]
          simp [joinNL]
    | cons l2 ls2 =>
      rw [glue_cons _ _ _ (by simp)]
      rw [joinNL_cons _ _ (glue_ne_nil _ ms (by simp)), joinNL_cons _ _ (by simp), ih]
      simp

/-- `Position::max_text_pos` from `position.rs`: row = number of segments
minus one when splitting on `'\n'`, col = length of the last segment.  (The
Rust code special-cases the empty string to the origin; `splitNL [] = [[]]`
yields the same value.) -/
def maxTextPos (u : Line) : Position :=
  ⟨(splitNL u).length - 1, ((splitNL u).getLastD []).length⟩

theorem list_getLastD_irrel {α : Type} (ys : List α) (h : ys ≠ []) (d d' : α) :
    ys.getLastD d = ys.getLastD d' := by
  cases ys with
  | nil => exact absurd rfl h
  | cons y ys =>
    cases ys with
    | nil => rfl
    | cons z zs => rw [List.getLastD_cons d y (z :: zs), List.getLastD_cons d' y (z :: zs)]

theorem list_getLastD_append {α : Type} (xs ys : List α) (d : α) (h : ys ≠ []) :
    (xs ++ ys).getLastD d = ys.getLastD d := by
  induction xs generalizing d with
  | nil => rfl
  | cons x xs ih =>
    rw [List.cons_append, List.getLastD_cons, ih]
    exact list_getLastD_irrel ys h x d

theorem list_getD_append_length {α : Type} (xs : List α) (y : α) (ys : List α) (d : α) :
    (xs ++ y :: ys).getD xs.length d = y := by
  induction xs with
  | nil => rfl
  | cons x xs ih => simpa [List.getD] using ih

theorem list_dropLast_append_getLastD {α : Type} (l : List α) (d : α) (h : l ≠ []) :
    l.dropLast ++ [l.getLastD d] = l := by
  induction l generalizing d with
  | nil => exact absurd rfl h
  | cons x t ih =>
    cases t with
    | nil => rfl
    | cons y t' =>
      rw [List.getLastD_cons, List.dropLast_cons₂, List.cons_append, ih x (by simp)]

theorem glue_length (ls ms : List Line) (hls : ls ≠ []) (hms : ms ≠ []) :
    (glue ls ms).length = ls.length + ms.length - 1 := by
  rw [glue_eq _ _ hls hms]
  have h1 := List.length_pos.mpr hls
  have h2 := List.length_pos.mpr hms
  simp only [List.length_append, List.length_dropLast, List.length_cons, List.length_tail]
  omega

theorem splitNL_append_length (u v : Line) :
    (splitNL (u ++ v)).length = (splitNL u).length + (splitNL v).length - 1 := by
  rw [splitNL_append]
  exact glue_length _ _ (splitNL_ne_nil u) (splitNL_ne_nil v)

theorem splitNL_append_getLastD_single (u m v : Line) (hsv : splitNL v = [m]) :
    (splitNL (u ++ v)).getLastD [] = (splitNL u).getLastD [] ++ m := by
  rw [splitNL_append, glue_eq _ _ (splitNL_ne_nil u) (splitNL_ne_nil v), hsv]
  simp only [List.headD_cons, List.tail_cons]
  rw [list_getLastD_append _ _ _ (by simp)]
  rfl

theorem splitNL_append_getLastD_multi (u v m m2 : Line) (ms2 : List Line)
    (hsv : splitNL v = m :: m2 :: ms2) :
    (splitNL (u ++ v)).getLastD [] = (m2 :: ms2).getLastD m := by
  rw [splitNL_append, glue_eq _ _ (splitNL_ne_nil u) (splitNL_ne_nil v), hsv]
  rw [list_getLastD_append _ _ _ (by simp)]
  simp only [List.headD_cons, List.tail_cons, List.getLastD_cons]

theorem maxTextPos_append (u v : Line) :
    maxTextPos (u ++ v) = (maxTextPos u).offset (maxTextPos v) := by
  have hul := List.length_pos.mpr (splitNL_ne_nil u)
  cases hsv : splitNL v with
  | nil => exact absurd hsv (splitNL_ne_nil v)
  | cons m ms =>
    cases ms with
    | nil =>
      have hrow : (maxTextPos v).row = 0 := by simp [maxTextPos, hsv]
      have hcond : (maxTextPos u).offset (maxTextPos v) =
          ⟨(maxTextPos u).row, (maxTextPos u).col + (maxTextPos v).col⟩ := by
        simp only [Position.offset]
        rw [if_pos hrow]
      rw [hcond]
      simp only [maxTextPos, Position.mk.injEq]
      refine ⟨?_, ?_⟩
      · rw [splitNL_append_length, hsv]
        simp only [List.length_cons, List.length_nil]
        omega
      · rw [splitNL_append_getLastD_single u m v hsv, hsv]
        simp [List.length_append]
    | cons m2 ms2 =>
      have hrow : (maxTextPos v).row = ms2.length + 1 := by simp [maxTextPos, hsv]
      have hcond : (maxTextPos u).offset (maxTextPos v) =
          ⟨(maxTextPos u).row + (maxTextPos v).row, (maxTextPos v).col⟩ := by
        simp only [Position.offset]
        rw [if_neg (by rw [hrow]; omega)]
      rw [hcond]
      simp only [maxTextPos, Position.mk.injEq]
      refine ⟨?_, ?_⟩
      · rw [splitNL_append_length, hsv]
        simp only [List.length_cons]
        omega
      · rw [splitNL_append_getLastD_multi u v m m2 ms2 hsv, hsv]
        exact congrArg List.length (List.getLastD_cons _ _ _).symm

/-- The serialized content strictly before position `p`: the lines above
`p.row` and the first `p.col` code units of line `p.row`, joined with
newlines.  This is the `prefix` of the spec's splice composition. -/
def contentUpTo (lines : List Line) (p : Position) : Line :=
  joinNL (lines.take p.row ++ [(lines.getD p.row []).take p.col])

/-- The serialized content from position `p` onward: the rest of line
`p.row` and all following lines, joined with newlines.  This is the
`suffix` of the spec's splice composition. -/
def contentFrom (lines : List Line) (p : Position) : Line :=
  joinNL ((lines.getD p.row []).drop p.col :: lines.drop (p.row + 1))

theorem list_take_append_left {α : Type} (xs ys : List α) (n : Nat) (h : n ≤ xs.length) :
    (xs ++ ys).take n = xs.take n := by
  induction xs generalizing n with
  | nil =>
    simp only [List.length_nil, Nat.le_zero] at h
    simp [h]
  | cons x xs ih =>
    cases n with
    | zero => rfl
    | succ n =>
      simp only [List.cons_append, List.take_succ_cons]
      rw [ih n (by simpa using h)]

/-- Splitting a concatenation and reading back the content up to the end
of the first chunk recovers that chunk: the heart of the "inserted text
occupies `[start, start + max_text_pos(text)]`" property. -/
theorem contentUpTo_splitNL_append (u v : Line) :
    contentUpTo (splitNL (u ++ v)) (maxTextPos u) = u := by
  have hu := splitNL_ne_nil u
  have hv := splitNL_ne_nil v
  have hul := List.length_pos.mpr hu
  rw [contentUpTo, splitNL_append, glue_eq _ _ hu hv]
  have hdrop : (splitNL u).dropLast.length = (splitNL u).length - 1 := List.length_dropLast _
  rw [show (maxTextPos u).row = (splitNL u).dropLast.length from by rw [hdrop]; rfl]
  rw [list_take_append_left _ _ _ (Nat.le_refl _), List.take_length]
  rw [list_getD_append_length]
  rw [show (maxTextPos u).col = ((splitNL u).getLastD []).length from rfl]
  rw [list_take_append_left _ _ _ (Nat.le_refl _), List.take_length]
  rw [list_dropLast_append_getLastD _ _ hu, joinNL_splitNL]

/-- `maxTextPos` recovers a position from the serialized content before it,
provided the position is within bounds and lines carry no embedded
newlines. -/
theorem maxTextPos_contentUpTo (lines : List Line) (p : Position)
    (hrow : p.row < lines.length)
    (hcol : p.col ≤ (lines.getD p.row []).length)
    (hnl : ∀ l ∈ lines, '\n' ∉ l) :
    maxTextPos (contentUpTo lines p) = p := by
  have hmem : lines.getD p.row [] ∈ lines := by
    rw [List.getD_eq_getElem lines [] hrow]
    exact List.getElem_mem _
  have hsp : splitNL (contentUpTo lines p) =
      lines.take p.row ++ [(lines.getD p.row []).take p.col] := by
    rw [contentUpTo]
    refine splitNL_joinNL _ (by simp) ?_
    intro l hl
    rcases List.mem_append.1 hl with h | h
    · exact hnl l (List.take_subset _ _ h)
    · rcases List.mem_singleton.1 h with rfl
      intro hc
      exact hnl _ hmem (List.take_subset _ _ hc)
  have hlen : (lines.take p.row).length = p.row := by
    rw [List.length_take]
    omega
  have hseg : ((lines.getD p.row []).take p.col).length = p.col := by
    rw [List.length_take]
    omega
  obtain ⟨prow, pcol⟩ := p
  simp only [maxTextPos, hsp, Position.mk.injEq]
  constructor
  · simp only [List.length_append, hlen, List.length_cons, List.length_nil]
    omega
  · rw [list_getLastD_append _ _ _ (by simp)]
    simpa using hseg

/-- `buffer::Error` (`src/core/src/buffer.rs`): the out-of-bounds variants
carry the offending value and the limit.  The region code
(`src/core/src/region/mod.rs`) also reports negative back-translated
coordinates, hence `Int` payloads.  `markInvalid` and `custom` stand for
the `Mark`/`Custom` variants. -/
inductive BufErr
  | rowOutOfBounds (val limit : Int)
  | colOutOfBounds (val limit : Int)
  | markInvalid
  | custom
deriving DecidableEq, Repr

/-- `Buffer::line_count` of the host text store.  Modelled from the spec:
the concrete storage lives in the host editor (`NvimBuffer` in
`src/src/buffer.rs`); §3 of the spec fixes a buffer to be its non-empty
list of lines, so the count is the length of that list. -/
def lineCount (lines : List Line) : Nat := lines.length

/-- `Buffer::max_row` (`buffer.rs` lines 33-35): `line_count - 1`. -/
def maxRow (lines : List Line) : Nat := lineCount lines - 1

/-- The host store's `get_lines(lo..hi)` for a resolved half-open range.
Modelled from the spec (§4.1): range bounds over line indices, an
out-of-range end is an error. -/
def getLines (lines : List Line) (lo hi : Nat) : Except BufErr (List Line) :=
  if hi > lines.length then .error (.rowOutOfBounds hi (lines.length : Int))
  else .ok ((lines.drop lo).take (hi - lo))

/-- `Buffer::get_line` (`buffer.rs` lines 68-82): bounds check against
`max_row`, then the first element of `get_lines(row..row+1)`. -/
def getLine (lines : List Line) (row : Nat) : Except BufErr Line :=
  if row > maxRow lines then .error (.rowOutOfBounds row (maxRow lines : Int))
  else
    match getLines lines row (row + 1) with
    | .error e => .error e
    | .ok [] => .error (.rowOutOfBounds row (maxRow lines : Int))
    | .ok (l :: _) => .ok l

/-- `Buffer::max_row_pos` (`buffer.rs` lines 41-44). -/
def maxRowPos (lines : List Line) (row : Nat) : Except BufErr Position :=
  match getLine lines row with
  | .error e => .error e
  | .ok l => .ok ⟨row, l.length⟩

/-- `Buffer::max_pos` (`buffer.rs` lines 37-39). -/
def maxPos (lines : List Line) : Except BufErr Position :=
  maxRowPos lines (maxRow lines)

/-- `Buffer::validate_pos` (`buffer.rs` lines 46-66). -/
def validatePos (lines : List Line) (p : Position) : Except BufErr Unit :=
  if p.row > maxRow lines then .error (.rowOutOfBounds p.row (maxRow lines : Int))
  else
    match maxRowPos lines p.row with
    | .error e => .error e
    | .ok mrp =>
      if p.col > mrp.col then .error (.colOutOfBounds p.col (mrp.col : Int))
      else .ok ()

/-- `Buffer::get_content` (`buffer.rs` lines 88-90): all lines joined with
newline. -/
def getContent (lines : List Line) : Except BufErr Line :=
  match getLines lines 0 (lineCount lines) with
  | .error e => .error e
  | .ok ls => .ok (joinNL ls)

/-- `set_text(start, end, text)`.  The endpoint validation is
`NvimBuffer::set_text` (`src/src/buffer.rs` lines 131-133); the splice
itself is host storage.  Modelled from the spec: §4.1 fixes the result to
be `prefix ++ text ++ suffix` with `prefix = content_up_to(start)` and
`suffix = content_from(end)`, re-split into lines. -/
def setText (lines : List Line) (a b : Position) (t : Line) :
    Except BufErr (List Line) :=
  match validatePos lines a with
  | .error e => .error e
  | .ok _ =>
    match validatePos lines b with
    | .error e => .error e
    | .ok _ => .ok (splitNL (contentUpTo lines a ++ t ++ contentFrom lines b))

/-- `Buffer::set_content` (`buffer.rs` lines 92-95):
`set_text(origin, max_pos(), text)`. -/
def setContent (lines : List Line) (t : Line) : Except BufErr (List Line) :=
  match maxPos lines with
  | .error e => .error e
  | .ok mp => setText lines Position.origin mp t

/-- `Buffer::append_at_position` (`buffer.rs` lines 103-115): splice at
`p + (0,1)` when that validates, else at `p` itself. -/
def appendAtPosition (lines : List Line) (p : Position) (t : Line) :
    Except BufErr (List Line) :=
  let next := p.nextCol
  let q := match validatePos lines next with
    | .ok _ => next
    | .error _ => p
  setText lines q q t

/-- `Buffer::prepend_at_position` (`buffer.rs` lines 117-119). -/
def prependAtPosition (lines : List Line) (p : Position) (t : Line) :
    Except BufErr (List Line) :=
  setText lines p p t

/-- `Buffer::append` (`buffer.rs` lines 121-129): take `max_pos`, step back
one column when `col > 0`, then `append_at_position`. -/
def append (lines : List Line) (t : Line) : Except BufErr (List Line) :=
  match maxPos lines with
  | .error e => .error e
  | .ok mp =>
    let mp := if mp.col > 0 then mp.prevCol else mp
    appendAtPosition lines mp t

/-- Well-formedness of a buffer (spec §3): at least one line, and no line
contains an embedded newline. -/
def WF (lines : List Line) : Prop :=
  lines ≠ [] ∧ ∀ l ∈ lines, '\n' ∉ l

instance (lines : List Line) : Decidable (WF lines) :=
  inferInstanceAs (Decidable (lines ≠ [] ∧ ∀ l ∈ lines, '\n' ∉ l))

theorem list_getD_last {α : Type} (l : List α) (d : α) (h : l ≠ []) :
    l.getD (l.length - 1) d = l.getLastD d := by
  induction l with
  | nil => exact absurd rfl h
  | cons x t ih =>
    cases t with
    | nil => rfl
    | cons y t' =>
      rw [List.getLastD_cons]
      have hl : (x :: y :: t').length - 1 = t'.length + 1 := by simp
      rw [hl, List.getD_cons_succ]
      have := ih (by simp)
      rwa [show (y :: t').length - 1 = t'.length from by simp] at this

theorem getLine_ok (lines : List Line) (row : Nat) (h : row < lines.length) :
    getLine lines row = .ok (lines.getD row []) := by
  have hne : lines ≠ [] := by
    intro hc
    rw [hc] at h
    simp at h
  have hpos := List.length_pos.mpr hne
  have hmr : ¬row > maxRow lines := by
    unfold maxRow lineCount
    omega
  have hd : (lines.drop row).take (row + 1 - row) = [lines.getD row []] := by
    rw [show row + 1 - row = 1 from by omega, List.drop_eq_getElem_cons h]
    simp only [List.take_succ_cons, List.take_zero]
    rw [List.getD_eq_getElem lines [] h]
  unfold getLine getLines
  rw [if_neg hmr, if_neg (by omega), hd]

theorem maxRowPos_ok (lines : List Line) (row : Nat) (h : row < lines.length) :
    maxRowPos lines row = .ok ⟨row, (lines.getD row []).length⟩ := by
  unfold maxRowPos
  rw [getLine_ok lines row h]

theorem maxPos_ok (lines : List Line) (h : lines ≠ []) :
    maxPos lines = .ok ⟨lines.length - 1, (lines.getLastD []).length⟩ := by
  have hpos := List.length_pos.mpr h
  unfold maxPos
  rw [show maxRow lines = lines.length - 1 from rfl]
  rw [maxRowPos_ok lines _ (by omega), list_getD_last lines [] h]

theorem validatePos_ok_iff (lines : List Line) (p : Position) (h : lines ≠ []) :
    validatePos lines p = .ok () ↔
      p.row < lines.length ∧ p.col ≤ (lines.getD p.row []).length := by
  have hpos := List.length_pos.mpr h
  unfold validatePos
  by_cases hr : p.row > maxRow lines
  · rw [if_pos hr]
    unfold maxRow lineCount at hr
    constructor
    · intro hc
      exact absurd hc (by simp)
    · intro hc
      omega
  · rw [if_neg hr]
    have hrow : p.row < lines.length := by
      unfold maxRow lineCount at hr
      omega
    rw [maxRowPos_ok lines p.row hrow]
    by_cases hc : p.col > (lines.getD p.row []).length
    · simp only [if_pos hc]
      constructor
      · intro hx
        exact absurd hx (by simp)
      · intro hx
        omega
    · simp only [if_neg hc]
      constructor
      · intro _
        exact ⟨hrow, by omega⟩
      · intro _
        trivial

theorem contentUpTo_origin (lines : List Line) :
    contentUpTo lines Position.origin = [] := by
  unfold contentUpTo Position.origin
  simp [joinNL]

theorem contentUpTo_maxPos (lines : List Line) (h : lines ≠ []) :
    contentUpTo lines ⟨lines.length - 1, (lines.getLastD []).length⟩ =
      joinNL lines := by
  unfold contentUpTo
  simp only
  rw [list_getD_last lines [] h, List.take_length, ← List.dropLast_eq_take,
    list_dropLast_append_getLastD lines [] h]

theorem contentFrom_maxPos (lines : List Line) (h : lines ≠ []) :
    contentFrom lines ⟨lines.length - 1, (lines.getLastD []).length⟩ = [] := by
  have hpos := List.length_pos.mpr h
  unfold contentFrom
  simp only
  rw [list_getD_last lines [] h, List.drop_length]
  rw [show lines.length - 1 + 1 = lines.length from by omega, List.drop_length]
  rfl

theorem WF_splitNL (u : Line) : WF (splitNL u) :=
  ⟨splitNL_ne_nil u, splitNL_no_nl u⟩

theorem getContent_eq (lines : List Line) :
    getContent lines = .ok (joinNL lines) := by
  unfold getContent getLines lineCount
  rw [if_neg (by omega)]
  simp

theorem setText_ok (lines : List Line) (a b : Position) (t : Line)
    (ha : validatePos lines a = .ok ()) (hb : validatePos lines b = .ok ()) :
    setText lines a b t =
      .ok (splitNL (contentUpTo lines a ++ t ++ contentFrom lines b)) := by
  unfold setText
  rw [ha, hb]

/-- C1: for validated endpoints `a ≤ b`, `set_text(a, b, text)` succeeds;
the new serialized content is `prefix ++ text ++ suffix`
(`prefix = content_up_to(a)`, `suffix = content_from(b)`); the content up
to `a` is unchanged, and the content up to `a + max_text_pos(text)` is the
old prefix followed exactly by the inserted text — i.e. the inserted text
occupies exactly the range `[a, a + max_text_pos(text)]`. -/
theorem set_text_splice_composition (lines : List Line) (a b : Position) (t : Line)
    (hwf : WF lines)
    (ha : validatePos lines a = .ok ()) (hb : validatePos lines b = .ok ())
    (hab : Position.leb a b = true) :
    ∃ L, setText lines a b t = .ok L ∧
      getContent L = .ok (contentUpTo lines a ++ t ++ contentFrom lines b) ∧
      contentUpTo L a = contentUpTo lines a ∧
      contentUpTo L (a.offset (maxTextPos t)) = contentUpTo lines a ++ t := by
  have hfacts := (validatePos_ok_iff lines a hwf.1).1 ha
  have hP : maxTextPos (contentUpTo lines a) = a :=
    maxTextPos_contentUpTo lines a hfacts.1 hfacts.2 hwf.2
  refine ⟨_, setText_ok lines a b t ha hb, ?_, ?_, ?_⟩
  · rw [getContent_eq, joinNL_splitNL]
  · have h3 := contentUpTo_splitNL_append (contentUpTo lines a)
      (t ++ contentFrom lines b)
    rw [hP, ← List.append_assoc] at h3
    exact h3
  · have h4 := contentUpTo_splitNL_append (contentUpTo lines a ++ t)
      (contentFrom lines b)
    rw [maxTextPos_append, hP] at h4
    exact h4

/-- The three-line demo buffer used throughout `buffer.rs`'s tests. -/
def demo1 : List Line := splitNL (("First line\nSecond line\nThird line!").toList)

theorem set_text_splice_composition_witness :
    WF demo1 ∧ validatePos demo1 ⟨0, 6⟩ = .ok () ∧
      validatePos demo1 ⟨2, 5⟩ = .ok () ∧
      Position.leb ⟨0, 6⟩ ⟨2, 5⟩ = true ∧
      ∃ L, setText demo1 ⟨0, 6⟩ ⟨2, 5⟩ ((":)").toList) = .ok L ∧
        getContent L =
          .ok (contentUpTo demo1 ⟨0, 6⟩ ++ (":)").toList ++ contentFrom demo1 ⟨2, 5⟩) ∧
        contentUpTo L ⟨0, 6⟩ = contentUpTo demo1 ⟨0, 6⟩ ∧
        contentUpTo L (Position.offset ⟨0, 6⟩ (maxTextPos ((":)").toList))) =
          contentUpTo demo1 ⟨0, 6⟩ ++ (":)").toList :=
  ⟨by decide, by decide, by decide, by decide,
    set_text_splice_composition demo1 ⟨0, 6⟩ ⟨2, 5⟩ ((":)").toList)
      (by decide) (by decide) (by decide) (by decide)⟩

/-- Sanity check against `_test_buffer_set_text` in `buffer.rs`: splicing
`":)"` over `(0,6)..(2,5)` of the three-line demo buffer yields
`"First :) line!"`. -/
theorem sanity_set_text_demo :
    setText demo1 ⟨0, 6⟩ ⟨2, 5⟩ ((":)").toList) =
      .ok (splitNL (("First :) line!").toList)) := by
  decide

theorem setText_ok_inv (lines : List Line) (a b : Position) (t : Line) (L : List Line)
    (h : setText lines a b t = .ok L) :
    L = splitNL (contentUpTo lines a ++ t ++ contentFrom lines b) := by
  unfold setText at h
  cases hva : validatePos lines a with
  | error e =>
    rw [hva] at h
    exact absurd h (by simp)
  | ok u =>
    rw [hva] at h
    cases hvb : validatePos lines b with
    | error e =>
      rw [hvb] at h
      exact absurd h (by simp)
    | ok v =>
      rw [hvb] at h
      simpa using h.symm

theorem validatePos_maxPos (lines : List Line) (h : lines ≠ []) :
    validatePos lines ⟨lines.length - 1, (lines.getLastD []).length⟩ = .ok () := by
  rw [validatePos_ok_iff _ _ h]
  have hpos := List.length_pos.mpr h
  refine ⟨?_, ?_⟩
  · show lines.length - 1 < lines.length
    omega
  · show (lines.getLastD []).length ≤ _
    rw [list_getD_last lines [] h]

theorem validatePos_origin (lines : List Line) (h : lines ≠ []) :
    validatePos lines Position.origin = .ok () := by
  rw [validatePos_ok_iff _ _ h]
  exact ⟨List.length_pos.mpr h, by simp [Position.origin]⟩

theorem maxRow_eq (lines : List Line) : maxRow lines = lines.length - 1 := rfl

/-- C5: the empty buffer is one empty line; every `set_text` result has at
least one line again (and remains well-formed) — and all mutating buffer
operations go through `set_text` — so `max_row = line_count − 1` is well
defined, `get_line(max_row)` succeeds, and `max_pos().col` is the length
of the last line. -/
theorem buffer_line_count_invariant (lines : List Line) (a b : Position) (t : Line)
    (hwf : WF lines) :
    lineCount (splitNL []) = 1 ∧
      getLine (splitNL []) 0 = .ok [] ∧
      (∀ L, setText lines a b t = .ok L → 1 ≤ lineCount L ∧ WF L) ∧
      maxRow lines = lineCount lines - 1 ∧
      getLine lines (maxRow lines) = .ok (lines.getLastD []) ∧
      maxPos lines = .ok ⟨maxRow lines, (lines.getLastD []).length⟩ := by
  have hne := hwf.1
  have hpos := List.length_pos.mpr hne
  refine ⟨rfl, rfl, ?_, rfl, ?_, ?_⟩
  · intro L hL
    rcases setText_ok_inv lines a b t L hL with rfl
    refine ⟨?_, WF_splitNL _⟩
    have := List.length_pos.mpr (splitNL_ne_nil
      (contentUpTo lines a ++ t ++ contentFrom lines b))
    unfold lineCount
    omega
  · rw [maxRow_eq, getLine_ok lines _ (by omega), list_getD_last lines [] hne]
  · rw [maxRow_eq]
    exact maxPos_ok lines hne

theorem buffer_line_count_invariant_witness :
    WF demo1 ∧
      (lineCount (splitNL []) = 1 ∧
        getLine (splitNL []) 0 = .ok [] ∧
        (∀ L, setText demo1 ⟨0, 6⟩ ⟨2, 5⟩ ((":)").toList) = .ok L →
          1 ≤ lineCount L ∧ WF L) ∧
        maxRow demo1 = lineCount demo1 - 1 ∧
        getLine demo1 (maxRow demo1) = .ok (demo1.getLastD []) ∧
        maxPos demo1 = .ok ⟨maxRow demo1, (demo1.getLastD []).length⟩) :=
  ⟨by decide, buffer_line_count_invariant demo1 ⟨0, 6⟩ ⟨2, 5⟩ ((":)").toList) (by decide)⟩

/-- C7: `set_content(get_content(B))` is a no-op: reading the whole content
and splicing it back over the full range reproduces exactly the same
lines. -/
theorem set_content_get_content_roundtrip (lines : List Line) (hwf : WF lines) :
    getContent lines = .ok (joinNL lines) ∧
      setContent lines (joinNL lines) = .ok lines := by
  have hne := hwf.1
  refine ⟨getContent_eq lines, ?_⟩
  unfold setContent
  rw [maxPos_ok lines hne]
  show setText lines Position.origin
    ⟨lines.length - 1, (lines.getLastD []).length⟩ (joinNL lines) = .ok lines
  rw [setText_ok lines _ _ _ (validatePos_origin lines hne) (validatePos_maxPos lines hne)]
  rw [contentUpTo_origin, contentFrom_maxPos lines hne]
  rw [List.nil_append, List.append_nil]
  rw [splitNL_joinNL lines hne hwf.2]

theorem set_content_get_content_roundtrip_witness :
    WF demo1 ∧
      (getContent demo1 = .ok (joinNL demo1) ∧
        setContent demo1 (joinNL demo1) = .ok demo1) :=
  ⟨by decide, set_content_get_content_roundtrip demo1 (by decide)⟩

theorem appendAtPosition_of_ok (lines : List Line) (p : Position) (t : Line)
    (h : validatePos lines p.nextCol = .ok ()) :
    appendAtPosition lines p t = setText lines p.nextCol p.nextCol t := by
  simp only [appendAtPosition]
  rw [h]

theorem appendAtPosition_of_err (lines : List Line) (p : Position) (t : Line)
    (e : BufErr) (h : validatePos lines p.nextCol = .error e) :
    appendAtPosition lines p t = setText lines p p t := by
  simp only [appendAtPosition]
  rw [h]

theorem append_eq (lines : List Line) (t : Line) (hne : lines ≠ []) :
    append lines t = appendAtPosition lines
      (if 0 < (lines.getLastD []).length
        then ⟨lines.length - 1, (lines.getLastD []).length - 1⟩
        else ⟨lines.length - 1, (lines.getLastD []).length⟩) t := by
  unfold append
  rw [maxPos_ok lines hne]
  rfl

/-- C6: `append_at_position(p, text)` splices at `p+(0,1)` when that
validates and at `p` itself otherwise; `append(text)` takes `max_pos`,
steps back one column exactly when `max_pos.col > 0`, and delegates to
`append_at_position`; consequently on a buffer whose last line is
non-empty the appended text lands after the last character — the new
serialized content is the old content followed by the text. -/
theorem append_semantics (lines : List Line) (p : Position) (t : Line)
    (hwf : WF lines) :
    (validatePos lines p.nextCol = .ok () →
        appendAtPosition lines p t = setText lines p.nextCol p.nextCol t) ∧
      (∀ e, validatePos lines p.nextCol = .error e →
        appendAtPosition lines p t = setText lines p p t) ∧
      append lines t =
        appendAtPosition lines
          (if 0 < (lines.getLastD []).length
            then ⟨lines.length - 1, (lines.getLastD []).length - 1⟩
            else ⟨lines.length - 1, (lines.getLastD []).length⟩) t ∧
      (0 < (lines.getLastD []).length →
        ∃ L, append lines t = .ok L ∧ getContent L = .ok (joinNL lines ++ t)) := by
  have hne := hwf.1
  refine ⟨appendAtPosition_of_ok lines p t,
    fun e => appendAtPosition_of_err lines p t e, append_eq lines t hne, ?_⟩
  intro hlen
  have hmax := validatePos_maxPos lines hne
  have hlen' : (lines.getLastD []).length - 1 + 1 = (lines.getLastD []).length := by
    omega
  have hnext : (⟨lines.length - 1, (lines.getLastD []).length - 1⟩ : Position).nextCol
      = ⟨lines.length - 1, (lines.getLastD []).length⟩ := by
    show (⟨lines.length - 1, (lines.getLastD []).length - 1 + 1⟩ : Position)
      = ⟨lines.length - 1, (lines.getLastD []).length⟩
    rw [hlen']
  have h1 : append lines t =
      setText lines ⟨lines.length - 1, (lines.getLastD []).length⟩
        ⟨lines.length - 1, (lines.getLastD []).length⟩ t := by
    rw [append_eq lines t hne, if_pos hlen,
      appendAtPosition_of_ok _ _ _ (by rw [hnext]; exact hmax), hnext]
  rw [h1, setText_ok _ _ _ _ hmax hmax, contentUpTo_maxPos lines hne,
    contentFrom_maxPos lines hne]
  refine ⟨_, rfl, ?_⟩
  rw [getContent_eq, joinNL_splitNL, List.append_nil]

theorem append_semantics_witness :
    WF demo1 ∧
      ((validatePos demo1 (Position.nextCol ⟨1, 6⟩) = .ok () →
          appendAtPosition demo1 ⟨1, 6⟩ (("x").toList) =
            setText demo1 (Position.nextCol ⟨1, 6⟩) (Position.nextCol ⟨1, 6⟩) (("x").toList)) ∧
        (∀ e, validatePos demo1 (Position.nextCol ⟨1, 6⟩) = .error e →
          appendAtPosition demo1 ⟨1, 6⟩ (("x").toList) =
            setText demo1 ⟨1, 6⟩ ⟨1, 6⟩ (("x").toList)) ∧
        append demo1 (("x").toList) =
          appendAtPosition demo1
            (if 0 < (demo1.getLastD []).length
              then ⟨demo1.length - 1, (demo1.getLastD []).length - 1⟩
              else ⟨demo1.length - 1, (demo1.getLastD []).length⟩) (("x").toList) ∧
        (0 < (demo1.getLastD []).length →
          ∃ L, append demo1 (("x").toList) = .ok L ∧
            getContent L = .ok (joinNL demo1 ++ ("x").toList))) :=
  ⟨by decide, append_semantics demo1 ⟨1, 6⟩ (("x").toList) (by decide)⟩

/-- Sanity check against `_test_buffer_append` in `buffer.rs`: appending to
the empty buffer and then appending a text with a leading newline. -/
theorem sanity_append_demo :
    append (splitNL []) (("First line").toList) =
      .ok (splitNL (("First line").toList)) ∧
      append (splitNL (("First line").toList)) (("\nSecond line").toList) =
        .ok (splitNL (("First line\nSecond line").toList)) := by
  constructor
  · decide
  · decide

/-- A cursor-capable buffer: lines plus the cursor position. -/
structure CBuf where
  lines : List Line
  cursor : Position
deriving DecidableEq, Repr

/-- `NvimBuffer::get_cursor` (`src/src/buffer.rs` lines 171-185): the host
cursor position, normalized to column 0 on an empty line. -/
def getCursor (st : CBuf) : Except BufErr Position :=
  match getLine st.lines st.cursor.row with
  | .error e => .error e
  | .ok l =>
    if l.length = 0 then .ok ⟨st.cursor.row, 0⟩ else .ok st.cursor

/-- `NvimBuffer::set_cursor` (`src/src/buffer.rs` lines 187-201): validate,
then persist. -/
def setCursor (st : CBuf) (p : Position) : Except BufErr CBuf :=
  match validatePos st.lines p with
  | .error e => .error e
  | .ok _ => .ok ⟨st.lines, p⟩

/-- `CursorWriteBuffer::type_text` (`src/core/src/cursor.rs` lines 27-47):
empty text is a no-op; otherwise insert at the cursor post-character (the
`append_at_position` rule) via `prepend_at_position`, then move the cursor
to `position.offset(max_text_pos).prev_col()`. -/
def typeText (st : CBuf) (t : Line) : Except BufErr CBuf :=
  if t = [] then .ok st
  else
    match getCursor st with
    | .error e => .error e
    | .ok pos =>
      let d := maxTextPos t
      let next := pos.nextCol
      let position := match validatePos st.lines next with
        | .ok _ => next
        | .error _ => pos
      match prependAtPosition st.lines position t with
      | .error e => .error e
      | .ok lines' => setCursor ⟨lines', st.cursor⟩ ((position.offset d).prevCol)

/-- The insertion point of `type_text`: the cursor post-character when it
validates, the cursor itself otherwise (the `append_at_position` rule,
replicated in `type_text`). -/
def typePos (st : CBuf) : Position :=
  match validatePos st.lines st.cursor.nextCol with
  | .ok _ => st.cursor.nextCol
  | .error _ => st.cursor

theorem getCursor_ok (st : CBuf) (hne : st.lines ≠ [])
    (hcur : validatePos st.lines st.cursor = .ok ()) :
    getCursor st = .ok st.cursor := by
  have hfacts := (validatePos_ok_iff _ _ hne).1 hcur
  unfold getCursor
  rw [getLine_ok _ _ hfacts.1]
  show (if (st.lines.getD st.cursor.row []).length = 0
    then Except.ok ⟨st.cursor.row, 0⟩ else Except.ok st.cursor) = .ok st.cursor
  by_cases h : (st.lines.getD st.cursor.row []).length = 0
  · rw [if_pos h]
    have hc0 : st.cursor.col = 0 := by omega
    have hEta : (⟨st.cursor.row, 0⟩ : Position) = st.cursor := by
      rw [← hc0]
    rw [hEta]
  · rw [if_neg h]

theorem validatePos_maxTextPos_append (u v : Line) :
    validatePos (splitNL (u ++ v)) (maxTextPos u) = .ok () := by
  rw [validatePos_ok_iff _ _ (splitNL_ne_nil _)]
  have h1 := List.length_pos.mpr (splitNL_ne_nil u)
  have h2 := List.length_pos.mpr (splitNL_ne_nil v)
  constructor
  · show (splitNL u).length - 1 < _
    rw [splitNL_append_length]
    omega
  · show ((splitNL u).getLastD []).length ≤ _
    rw [splitNL_append, glue_eq _ _ (splitNL_ne_nil u) (splitNL_ne_nil v)]
    rw [show (maxTextPos u).row = (splitNL u).dropLast.length from by
      rw [List.length_dropLast]; rfl]
    rw [list_getD_append_length]
    simp [List.length_append]

theorem validatePos_prevCol (lines : List Line) (p : Position) (hne : lines ≠ [])
    (h : validatePos lines p = .ok ()) :
    validatePos lines p.prevCol = .ok () := by
  rw [validatePos_ok_iff _ _ hne] at h ⊢
  refine ⟨h.1, ?_⟩
  show p.col - 1 ≤ (lines.getD p.row []).length
  have := h.2
  omega

/-- C8: `type_text` of empty text is a no-op on buffer and cursor;
otherwise it inserts the text at the cursor post-character — at
`cursor+(0,1)` when that validates, else at the cursor itself — and then
places the cursor at the end of the inserted text minus one column, so it
rests on the last inserted character. -/
theorem type_text_semantics (st : CBuf) (t : Line)
    (hwf : WF st.lines) (hcur : validatePos st.lines st.cursor = .ok ()) :
    typeText st [] = .ok st ∧
      (t ≠ [] →
        ∃ L, prependAtPosition st.lines (typePos st) t = .ok L ∧
          typeText st t = .ok ⟨L, ((typePos st).offset (maxTextPos t)).prevCol⟩) := by
  have hne := hwf.1
  refine ⟨rfl, ?_⟩
  intro ht
  have hq : validatePos st.lines (typePos st) = .ok () := by
    unfold typePos
    cases hv : validatePos st.lines st.cursor.nextCol with
    | ok u =>
      cases u
      exact hv
    | error e => exact hcur
  have hqf := (validatePos_ok_iff _ _ hne).1 hq
  have hPQ : maxTextPos (contentUpTo st.lines (typePos st)) = typePos st :=
    maxTextPos_contentUpTo _ _ hqf.1 hqf.2 hwf.2
  have hsp : prependAtPosition st.lines (typePos st) t =
      .ok (splitNL (contentUpTo st.lines (typePos st) ++ t ++
        contentFrom st.lines (typePos st))) := by
    unfold prependAtPosition
    exact setText_ok _ _ _ _ hq hq
  refine ⟨_, hsp, ?_⟩
  have heval : typeText st t =
      match prependAtPosition st.lines (typePos st) t with
      | .error e => .error e
      | .ok lines' =>
        setCursor ⟨lines', st.cursor⟩ (((typePos st).offset (maxTextPos t)).prevCol) := by
    unfold typeText
    rw [if_neg ht, getCursor_ok st hwf.1 hcur]
    rfl
  rw [heval, hsp]
  have hoff : (typePos st).offset (maxTextPos t) =
      maxTextPos (contentUpTo st.lines (typePos st) ++ t) := by
    rw [maxTextPos_append, hPQ]
  have hvend : validatePos
      (splitNL (contentUpTo st.lines (typePos st) ++ t ++
        contentFrom st.lines (typePos st)))
      (((typePos st).offset (maxTextPos t)).prevCol) = .ok () := by
    rw [hoff]
    exact validatePos_prevCol _ _ (splitNL_ne_nil _)
      (validatePos_maxTextPos_append (contentUpTo st.lines (typePos st) ++ t)
        (contentFrom st.lines (typePos st)))
  show setCursor
      ⟨splitNL (contentUpTo st.lines (typePos st) ++ t ++
        contentFrom st.lines (typePos st)), st.cursor⟩
      (((typePos st).offset (maxTextPos t)).prevCol) = _
  unfold setCursor
  dsimp only
  rw [hvend]

theorem type_text_semantics_witness :
    (WF demo1 ∧ validatePos demo1 ⟨1, 6⟩ = .ok ()) ∧
      (typeText ⟨demo1, ⟨1, 6⟩⟩ [] = .ok ⟨demo1, ⟨1, 6⟩⟩ ∧
        (("test ").toList ≠ [] →
          ∃ L, prependAtPosition demo1 (typePos ⟨demo1, ⟨1, 6⟩⟩) (("test ").toList) =
              .ok L ∧
            typeText ⟨demo1, ⟨1, 6⟩⟩ (("test ").toList) =
              .ok ⟨L, ((typePos ⟨demo1, ⟨1, 6⟩⟩).offset
                (maxTextPos (("test ").toList))).prevCol⟩)) :=
  ⟨⟨by decide, by decide⟩,
    type_text_semantics ⟨demo1, ⟨1, 6⟩⟩ (("test ").toList) (by decide) (by decide)⟩

/-- Sanity check against `test_cursor_type_text` in `cursor.rs`: typing
`"test "` with the cursor at `(1,6)` of the demo buffer inserts after the
cursor character and leaves the cursor on the last typed character. -/
theorem sanity_type_text_demo :
    typeText ⟨demo1, ⟨1, 6⟩⟩ (("test ").toList) =
      .ok ⟨splitNL (("First line\nSecond test line\nThird line!").toList), ⟨1, 11⟩⟩ := by
  decide

/-- Mark gravity (`src/core/src/mark.rs`). -/
inductive Gravity
  | left
  | right
deriving DecidableEq, Repr

/-- Mark drift under `set_text(a, b, text)` with inserted extent `d`.
Modelled from the spec: the drift itself is performed by the host's
extmark machinery (`src/nvim/eel-nvim/src/buffer/mark.rs` delegates to
Neovim extmarks), and §4.2 of the spec fixes the sticky-left/sticky-right
semantics: positions before `a` are untouched, positions after `b`
translate by the edit delta (with the horizontal adjustment only on `b`'s
line), and positions inside `[a, b]` collapse to `a` (Left gravity) or to
`a + d` (Right gravity). -/
def markDrift (a b d : Position) (g : Gravity) (p : Position) : Position :=
  if Position.ltb p a then p
  else if Position.ltb b p then
    ⟨p.row + d.row - (b.row - a.row),
      if p.row = b.row then
        (p.col - b.col) + (if d.row = 0 then a.col + d.col else d.col)
      else p.col⟩
  else
    match g with
    | .left => a
    | .right => a.offset d

/-- A mark-capable buffer: lines plus the live marks as
`(gravity, position)` pairs. -/
structure MBuf where
  lines : List Line
  marks : List (Gravity × Position)
deriving DecidableEq, Repr

/-- `set_text` on a mark-capable buffer: splice the lines and drift every
surviving mark (spec §4.2). -/
def setTextMarks (st : MBuf) (a b : Position) (t : Line) : Except BufErr MBuf :=
  match setText st.lines a b t with
  | .error e => .error e
  | .ok lines' =>
    .ok ⟨lines',
      st.marks.map (fun gp => (gp.1, markDrift a b (maxTextPos t) gp.1 gp.2))⟩

theorem ltb_iff (p q : Position) :
    Position.ltb p q = true ↔ (p.row < q.row ∨ (p.row = q.row ∧ p.col < q.col)) := by
  unfold Position.ltb
  simp

theorem leb_iff (p q : Position) :
    Position.leb p q = true ↔ (p.row < q.row ∨ (p.row = q.row ∧ p.col ≤ q.col)) := by
  unfold Position.leb
  simp

/-- C2: after `set_text(a, b, t)` with `d = max_text_pos(t)`, every
surviving mark that was at `p` obeys the drift rules: `p < a` unchanged;
`p > b` translates by the edit delta (`d.row − (b.row − a.row)`
vertically, with the horizontal adjustment only when `p` was on `b`'s
line, using tail column `a.col + d.col` for single-row inserts and
`d.col` otherwise); and `a ≤ p ≤ b` — including `p = a` and `p = b` —
collapses to `a` under Left gravity and to `a.offset d` under Right. -/
theorem mark_drift_rules (st st' : MBuf) (a b : Position) (t : Line) (i : Nat)
    (g : Gravity) (p : Position) (hab : Position.leb a b = true)
    (h : setTextMarks st a b t = .ok st') (hm : st.marks[i]? = some (g, p)) :
    ∃ p', st'.marks[i]? = some (g, p') ∧
      (Position.ltb p a = true → p' = p) ∧
      (Position.ltb b p = true →
        p' = ⟨p.row + (maxTextPos t).row - (b.row - a.row),
          if p.row = b.row then
            (p.col - b.col) +
              (if (maxTextPos t).row = 0 then a.col + (maxTextPos t).col
                else (maxTextPos t).col)
          else p.col⟩) ∧
      (Position.ltb p a = false → Position.ltb b p = false →
        p' = match g with
          | .left => a
          | .right => a.offset (maxTextPos t)) := by
  have hmarks : st'.marks =
      st.marks.map (fun gp => (gp.1, markDrift a b (maxTextPos t) gp.1 gp.2)) := by
    unfold setTextMarks at h
    cases hst : setText st.lines a b t with
    | error e =>
      rw [hst] at h
      exact absurd h (by simp)
    | ok lines' =>
      rw [hst] at h
      cases h
      rfl
  refine ⟨markDrift a b (maxTextPos t) g p, ?_, ?_, ?_, ?_⟩
  · rw [hmarks, List.getElem?_map, hm]
    rfl
  · intro hlt
    unfold markDrift
    rw [if_pos hlt]
  · intro hgt
    have hgt' := (ltb_iff b p).1 hgt
    have hab' := (leb_iff a b).1 hab
    have hnlt : Position.ltb p a = false := by
      rw [Bool.eq_false_iff]
      intro hc
      have hc' := (ltb_iff p a).1 hc
      omega
    unfold markDrift
    rw [if_neg (by rw [hnlt]; simp), if_pos hgt]
  · intro h1 h2
    unfold markDrift
    rw [if_neg (by rw [h1]; simp), if_neg (by rw [h2]; simp)]
    cases g <;> rfl

theorem mark_drift_rules_witness :
    (Position.leb ⟨0, 1⟩ ⟨0, 9⟩ = true ∧
      setTextMarks ⟨splitNL (("First line").toList), [(Gravity.right, ⟨0, 5⟩)]⟩
          ⟨0, 1⟩ ⟨0, 9⟩ (("ir").toList) =
        .ok ⟨splitNL (("Fire").toList), [(Gravity.right, ⟨0, 3⟩)]⟩) ∧
      (∃ p', (⟨splitNL (("Fire").toList),
            [(Gravity.right, ⟨0, 3⟩)]⟩ : MBuf).marks[0]? = some (Gravity.right, p') ∧
        (Position.ltb ⟨0, 5⟩ ⟨0, 1⟩ = true → p' = ⟨0, 5⟩) ∧
        (Position.ltb ⟨0, 9⟩ ⟨0, 5⟩ = true →
          p' = ⟨0 + (maxTextPos (("ir").toList)).row - (9 - 1),
            if 0 = 0 then
              (5 - 9) +
                (if (maxTextPos (("ir").toList)).row = 0 then
                  1 + (maxTextPos (("ir").toList)).col
                else (maxTextPos (("ir").toList)).col)
            else 5⟩) ∧
        (Position.ltb ⟨0, 5⟩ ⟨0, 1⟩ = false → Position.ltb ⟨0, 9⟩ ⟨0, 5⟩ = false →
          p' = match Gravity.right with
            | Gravity.left => (⟨0, 1⟩ : Position)
            | Gravity.right => Position.offset ⟨0, 1⟩ (maxTextPos (("ir").toList)))) :=
  ⟨⟨by decide, by decide⟩,
    mark_drift_rules ⟨splitNL (("First line").toList), [(Gravity.right, ⟨0, 5⟩)]⟩
      ⟨splitNL (("Fire").toList), [(Gravity.right, ⟨0, 3⟩)]⟩
      ⟨0, 1⟩ ⟨0, 9⟩ (("ir").toList) 0 Gravity.right ⟨0, 5⟩
      (by decide) (by decide) (by decide)⟩

/-- Sanity check against `test_mark_gravity_right` in `mark.rs`: a default
(right-gravity) mark at `(0,5)` of `"First line"` drifts to `(0,3)` under
`set_text((0,1),(0,9),"ir")`, then to `(0,6)` under the zero-width insert
`set_text((0,3),(0,3),"...")`. -/
theorem sanity_mark_gravity_right :
    setTextMarks ⟨splitNL (("First line").toList), [(Gravity.right, ⟨0, 5⟩)]⟩
        ⟨0, 1⟩ ⟨0, 9⟩ (("ir").toList) =
      .ok ⟨splitNL (("Fire").toList), [(Gravity.right, ⟨0, 3⟩)]⟩ ∧
      setTextMarks ⟨splitNL (("Fire").toList), [(Gravity.right, ⟨0, 3⟩)]⟩
          ⟨0, 3⟩ ⟨0, 3⟩ (("...").toList) =
        .ok ⟨splitNL (("Fir...e").toList), [(Gravity.right, ⟨0, 6⟩)]⟩ :=
  ⟨by decide, by decide⟩

/-- Sanity check against `test_mark_gravity_left` in `mark.rs`: a
left-gravity mark at `(0,5)` collapses to `(0,1)` under
`set_text((0,1),(0,9),"ir")` and stays at `(0,1)` under
`set_text((0,1),(0,3),"...")`. -/
theorem sanity_mark_gravity_left :
    setTextMarks ⟨splitNL (("First line").toList), [(Gravity.left, ⟨0, 5⟩)]⟩
        ⟨0, 1⟩ ⟨0, 9⟩ (("ir").toList) =
      .ok ⟨splitNL (("Fire").toList), [(Gravity.left, ⟨0, 1⟩)]⟩ ∧
      setTextMarks ⟨splitNL (("Fire").toList), [(Gravity.left, ⟨0, 1⟩)]⟩
          ⟨0, 1⟩ ⟨0, 3⟩ (("...").toList) =
        .ok ⟨splitNL (("F...e").toList), [(Gravity.left, ⟨0, 1⟩)]⟩ :=
  ⟨by decide, by decide⟩

/-- Sanity check against `test_mark_set_text` in `mark.rs`: a right-gravity
mark at `(0,6)` of `"First line"` moves to `(1,7)` under the multi-line
zero-width insert at `(0,6)`. -/
theorem sanity_mark_set_text :
    setTextMarks ⟨splitNL (("First line").toList), [(Gravity.right, ⟨0, 6⟩)]⟩
        ⟨0, 6⟩ ⟨0, 6⟩ (("(actually) line\nSecond ").toList) =
      .ok ⟨splitNL (("First (actually) line\nSecond line").toList),
        [(Gravity.right, ⟨1, 7⟩)]⟩ := by
  decide

/-- A locked region access (`BufferRegionAccess` in
`src/core/src/region/mod.rs`): the parent buffer's lines, the current
positions of the `start` (Left gravity) and `end` (Right gravity) marks,
and the parent's cursor position for the cursor extension
(`region/cursor.rs`).  Reading a mark's position is modelled as reading
the stored field. -/
structure RegionState where
  parent : List Line
  startPos : Position
  endPos : Position
  pcursor : Position
deriving DecidableEq, Repr

/-- `BufferRegionAccess::real_position` (`region/mod.rs` lines 32-43):
region → parent coordinates. -/
def realPosition (st : RegionState) (pos : Position) : Position :=
  ⟨st.startPos.row + pos.row,
    if pos.row = 0 then st.startPos.col + pos.col else pos.col⟩

/-- `ReadBuffer::line_count` for a region (`region/mod.rs` lines 121-127):
`end.row - start.row + 1`.  The Rust subtraction is on `usize`; the
model's truncated subtraction agrees with it whenever
`start.row ≤ end.row` (an inverted region with `end.row < start.row`
would make the Rust code panic on underflow instead), and every theorem
below stays in that regime. -/
def regionLineCount (st : RegionState) : Except BufErr Nat :=
  .ok (st.endPos.row - st.startPos.row + 1)

/-- `lines.last_mut()` update: apply `f` to the last element when the list
is non-empty (`region/mod.rs` lines 162-164). -/
def modifyLastL (f : Line → Line) : List Line → List Line
  | [] => []
  | [l] => [f l]
  | l :: ls => l :: modifyLastL f ls

/-- `lines.first_mut()` update: apply `f` to the first element when the
list is non-empty (`region/mod.rs` lines 166-168). -/
def modifyHeadL (f : Line → Line) : List Line → List Line
  | [] => []
  | l :: ls => f l :: ls

/-- `ReadBuffer::get_lines` for a region (`region/mod.rs` lines 129-171),
for the resolved half-open range `lo..hi`: fetch the parent rows shifted
by `start.row`, truncate the last fetched line to `end.col` when the range
reaches `line_count`, then drop the first `start.col` units when the range
starts at 0.  The first-line trim in Rust is `*l = l.split_off(start.col)`
on the already-truncated line, and `String::split_off` panics when the
index exceeds the length — reachable on a same-row inverted region
(`end.col < start.col` after truncation).  The model's `List.drop` is
total and agrees with the source only when that index is in bounds;
every theorem about this definition carries `start ≤ end` and mark
validity to stay in that regime, and proves the `split_off` index in
bounds there. -/
def regionGetLines (st : RegionState) (lo hi : Nat) : Except BufErr (List Line) :=
  match regionLineCount st with
  | .error e => .error e
  | .ok lc =>
    match getLines st.parent (lo + st.startPos.row) (hi + st.startPos.row) with
    | .error e => .error e
    | .ok ls =>
      let ls := if hi = lc then modifyLastL (List.take st.endPos.col) ls else ls
      let ls := if lo = 0 then modifyHeadL (List.drop st.startPos.col) ls else ls
      .ok ls

/-- `get_line` over the region's `line_count`/`get_lines` (the default
method of `buffer.rs` instantiated for `BufferRegionAccess`). -/
def regionGetLine (st : RegionState) (row : Nat) : Except BufErr Line :=
  match regionLineCount st with
  | .error e => .error e
  | .ok lc =>
    if row > lc - 1 then .error (.rowOutOfBounds row ((lc - 1 : Nat) : Int))
    else
      match regionGetLines st row (row + 1) with
      | .error e => .error e
      | .ok [] => .error (.rowOutOfBounds row ((lc - 1 : Nat) : Int))
      | .ok (l :: _) => .ok l

/-- `validate_pos` over the region's `line_count`/`get_line` (the default
method of `buffer.rs` instantiated for `BufferRegionAccess`). -/
def regionValidatePos (st : RegionState) (p : Position) : Except BufErr Unit :=
  match regionLineCount st with
  | .error e => .error e
  | .ok lc =>
    if p.row > lc - 1 then .error (.rowOutOfBounds p.row ((lc - 1 : Nat) : Int))
    else
      match regionGetLine st p.row with
      | .error e => .error e
      | .ok l =>
        if p.col > l.length then .error (.colOutOfBounds p.col (l.length : Int))
        else .ok ()

/-- `BufferRegionAccess::region_position` (`region/mod.rs` lines 45-71):
parent → region coordinates, with signed intermediate values; negative
coordinates and positions outside the region's current bounds are
reported as out-of-bounds errors, never clamped. -/
def regionPosition (st : RegionState) (pos : Position) : Except BufErr Position :=
  let row : Int := (pos.row : Int) - (st.startPos.row : Int)
  let col : Int := if pos.row = st.startPos.row
    then (pos.col : Int) - (st.startPos.col : Int)
    else (pos.col : Int)
  if row < 0 then .error (.rowOutOfBounds row 0)
  else if col < 0 then .error (.colOutOfBounds col 0)
  else
    match regionValidatePos st ⟨row.toNat, col.toNat⟩ with
    | .error e => .error e
    | .ok _ => .ok ⟨row.toNat, col.toNat⟩

/-- `CursorReadBuffer::get_cursor` for a region (`region/cursor.rs` lines
19-23): read the parent's cursor (with the host's empty-line
normalization, `src/src/buffer.rs`), then translate it into region
coordinates. -/
def regionGetCursor (st : RegionState) : Except BufErr Position :=
  match getCursor ⟨st.parent, st.pcursor⟩ with
  | .error e => .error e
  | .ok pos => regionPosition st pos

/-- The region line at region-relative row `r`: the parent line at
`start.row + r`, truncated to `end.col` when `r` is the last region row
and stripped of the first `start.col` units when `r = 0`. -/
def regionLineAt (st : RegionState) (r : Nat) : Line :=
  let base := st.parent.getD (st.startPos.row + r) []
  let base := if r + 1 = st.endPos.row - st.startPos.row + 1
    then base.take st.endPos.col else base
  if r = 0 then base.drop st.startPos.col else base

theorem regionGetLines_single (st : RegionState) (r : Nat)
    (hse : st.startPos.row ≤ st.endPos.row)
    (hE : st.endPos.row < st.parent.length)
    (hr : r ≤ st.endPos.row - st.startPos.row) :
    regionGetLines st r (r + 1) = .ok [regionLineAt st r] := by
  have hlt : r + st.startPos.row < st.parent.length := by omega
  have hfetch : getLines st.parent (r + st.startPos.row) (r + 1 + st.startPos.row) =
      .ok [st.parent.getD (st.startPos.row + r) []] := by
    unfold getLines
    rw [if_neg (by omega)]
    congr 1
    rw [show r + 1 + st.startPos.row - (r + st.startPos.row) = 1 from by omega]
    rw [List.drop_eq_getElem_cons hlt]
    simp only [List.take_succ_cons, List.take_zero]
    rw [Nat.add_comm st.startPos.row r, List.getD_eq_getElem _ [] hlt]
  unfold regionGetLines regionLineCount
  dsimp only
  rw [hfetch]
  show Except.ok
      (if r = 0 then
        modifyHeadL (List.drop st.startPos.col)
          (if r + 1 = st.endPos.row - st.startPos.row + 1
            then modifyLastL (List.take st.endPos.col)
              [st.parent.getD (st.startPos.row + r) []]
            else [st.parent.getD (st.startPos.row + r) []])
      else if r + 1 = st.endPos.row - st.startPos.row + 1
        then modifyLastL (List.take st.endPos.col)
          [st.parent.getD (st.startPos.row + r) []]
        else [st.parent.getD (st.startPos.row + r) []]) =
    Except.ok [regionLineAt st r]
  have hA : (if r + 1 = st.endPos.row - st.startPos.row + 1
      then modifyLastL (List.take st.endPos.col) [st.parent.getD (st.startPos.row + r) []]
      else [st.parent.getD (st.startPos.row + r) []]) =
      [if r + 1 = st.endPos.row - st.startPos.row + 1
        then (st.parent.getD (st.startPos.row + r) []).take st.endPos.col
        else st.parent.getD (st.startPos.row + r) []] := by
    by_cases h : r + 1 = st.endPos.row - st.startPos.row + 1 <;>
      simp [h, modifyLastL]
  have hB : ∀ y : Line,
      (if r = 0 then modifyHeadL (List.drop st.startPos.col) [y] else [y]) =
      [if r = 0 then y.drop st.startPos.col else y] := by
    intro y
    by_cases h : r = 0 <;> simp [h, modifyHeadL]
  rw [hA, hB]
  rfl

theorem regionGetLine_eq (st : RegionState) (r : Nat)
    (hse : st.startPos.row ≤ st.endPos.row)
    (hE : st.endPos.row < st.parent.length)
    (hr : r ≤ st.endPos.row - st.startPos.row) :
    regionGetLine st r = .ok (regionLineAt st r) := by
  unfold regionGetLine regionLineCount
  dsimp only
  rw [if_neg (by omega), regionGetLines_single st r hse hE hr]

theorem regionValidatePos_ok_iff (st : RegionState) (p : Position)
    (hse : st.startPos.row ≤ st.endPos.row)
    (hE : st.endPos.row < st.parent.length) :
    regionValidatePos st p = .ok () ↔
      p.row ≤ st.endPos.row - st.startPos.row ∧
        p.col ≤ (regionLineAt st p.row).length := by
  unfold regionValidatePos regionLineCount
  dsimp only
  by_cases hr : p.row > st.endPos.row - st.startPos.row + 1 - 1
  · rw [if_pos hr]
    constructor
    · intro hc
      exact absurd hc (by simp)
    · intro hc
      omega
  · rw [if_neg hr]
    rw [regionGetLine_eq st p.row hse hE (by omega)]
    show (if p.col > (regionLineAt st p.row).length
      then (Except.error (BufErr.colOutOfBounds p.col
        ((regionLineAt st p.row).length : Int)) : Except BufErr Unit)
      else Except.ok ()) = .ok () ↔ _
    by_cases hc : p.col > (regionLineAt st p.row).length
    · rw [if_pos hc]
      constructor
      · intro hx
        exact absurd hx (by simp)
      · intro hx
        omega
    · rw [if_neg hc]
      constructor
      · intro _
        exact ⟨by omega, by omega⟩
      · intro _
        trivial

theorem validatePos_ok_ne_nil (lines : List Line) (p : Position)
    (h : validatePos lines p = .ok ()) : lines ≠ [] := by
  intro hc
  subst hc
  by_cases hp : p.row > maxRow []
  · unfold validatePos at h
    rw [if_pos hp] at h
    exact absurd h (by simp)
  · unfold validatePos at h
    rw [if_neg hp] at h
    have hp0 : p.row = 0 := by
      unfold maxRow lineCount at hp
      simp at hp
      omega
    rw [hp0] at h
    have hmrp : maxRowPos ([] : List Line) 0 = .error (.rowOutOfBounds 1 0) := rfl
    rw [hmrp] at h
    exact absurd h (by simp)

theorem take_pos_cons {α : Type} (n : Nat) (x : α) (xs : List α) (h : 1 ≤ n) :
    List.take n (x :: xs) = x :: List.take (n - 1) xs := by
  cases n with
  | zero => omega
  | succ m => rfl

/-- C4: for a region with `start ≤ end` and both marks valid in the
parent, `line_count` is `end.row − start.row + 1`; `get_lines` fetches
the parent rows shifted by `start.row` and trims — the last fetched line
is truncated to `end.col` exactly when the requested range reaches the
last region line, the first `start.col` code units are dropped exactly
when it includes the first — and on a single-line region
(`start.row = end.row`) the two trims compose truncate-then-drop to yield
`parent_line[start.col .. end.col]`.  The last conjunct pins the model to
the source: the index of the first-line `String::split_off(start.col)`
never exceeds the length of the (possibly `end.col`-truncated) first
fetched line here, so Rust's partial `split_off` and the model's total
`List.drop` agree; outside this `start ≤ end` regime (a same-row inverted
region) the source panics there. -/
theorem region_line_count_get_lines (st : RegionState) (lo hi : Nat)
    (hse : Position.leb st.startPos st.endPos = true)
    (hSv : validatePos st.parent st.startPos = .ok ())
    (hEv : validatePos st.parent st.endPos = .ok ())
    (hlo : lo ≤ hi) (hhi : hi ≤ st.endPos.row - st.startPos.row + 1) :
    regionLineCount st = .ok (st.endPos.row - st.startPos.row + 1) ∧
      regionGetLines st lo hi = .ok
        ((if lo = 0 then modifyHeadL (List.drop st.startPos.col) else id)
          ((if hi = st.endPos.row - st.startPos.row + 1
            then modifyLastL (List.take st.endPos.col) else id)
            ((st.parent.drop (lo + st.startPos.row)).take (hi - lo)))) ∧
      (st.startPos.row = st.endPos.row →
        regionGetLines st 0 1 = .ok
          [((st.parent.getD st.startPos.row []).drop st.startPos.col).take
            (st.endPos.col - st.startPos.col)]) ∧
      (lo = 0 → ∀ l ls,
        (if hi = st.endPos.row - st.startPos.row + 1
          then modifyLastL (List.take st.endPos.col) else id)
          ((st.parent.drop (lo + st.startPos.row)).take (hi - lo)) = l :: ls →
        st.startPos.col ≤ l.length) := by
  have hse' := (leb_iff _ _).1 hse
  have hserow : st.startPos.row ≤ st.endPos.row := by omega
  have hPne := validatePos_ok_ne_nil _ _ hSv
  have hSf := (validatePos_ok_iff _ _ hPne).1 hSv
  have hEf := (validatePos_ok_iff _ _ hPne).1 hEv
  have hE : st.endPos.row < st.parent.length := hEf.1
  refine ⟨rfl, ?_, ?_, ?_⟩
  · have hfetch : getLines st.parent (lo + st.startPos.row) (hi + st.startPos.row) =
        .ok ((st.parent.drop (lo + st.startPos.row)).take (hi - lo)) := by
      unfold getLines
      rw [if_neg (by omega)]
      rw [show hi + st.startPos.row - (lo + st.startPos.row) = hi - lo from by omega]
    unfold regionGetLines regionLineCount
    dsimp only
    rw [hfetch]
    show Except.ok
        (if lo = 0 then
          modifyHeadL (List.drop st.startPos.col)
            (if hi = st.endPos.row - st.startPos.row + 1
              then modifyLastL (List.take st.endPos.col)
                ((st.parent.drop (lo + st.startPos.row)).take (hi - lo))
              else (st.parent.drop (lo + st.startPos.row)).take (hi - lo))
        else if hi = st.endPos.row - st.startPos.row + 1
          then modifyLastL (List.take st.endPos.col)
            ((st.parent.drop (lo + st.startPos.row)).take (hi - lo))
          else (st.parent.drop (lo + st.startPos.row)).take (hi - lo)) = _
    by_cases h1 : hi = st.endPos.row - st.startPos.row + 1 <;>
      by_cases h2 : lo = 0 <;> simp [h1, h2]
  · intro hrow
    rw [regionGetLines_single st 0 hserow hE (by omega)]
    unfold regionLineAt
    dsimp only
    rw [if_pos (show 0 + 1 = st.endPos.row - st.startPos.row + 1 from by omega)]
    rw [Nat.add_zero, List.drop_take, if_pos rfl]
  · intro hlo0 l ls hfirst
    subst hlo0
    rw [Nat.zero_add, Nat.sub_zero] at hfirst
    by_cases hhi0 : hi = 0
    · subst hhi0
      rw [if_neg (show ¬(0 = st.endPos.row - st.startPos.row + 1) from by omega)]
        at hfirst
      simp at hfirst
    · have hhi1 : 1 ≤ hi := by omega
      have hSlt : st.startPos.row < st.parent.length := hSf.1
      have hdrop : (st.parent.drop st.startPos.row).take hi =
          st.parent.getD st.startPos.row [] ::
            (st.parent.drop (st.startPos.row + 1)).take (hi - 1) := by
        rw [List.drop_eq_getElem_cons hSlt, take_pos_cons hi _ _ hhi1,
          List.getD_eq_getElem _ [] hSlt]
      rw [hdrop] at hfirst
      by_cases hlast : hi = st.endPos.row - st.startPos.row + 1
      · rw [if_pos hlast] at hfirst
        by_cases h1 : hi = 1
        · rw [show hi - 1 = 0 from by omega, List.take_zero] at hfirst
          have hm : modifyLastL (List.take st.endPos.col)
              [st.parent.getD st.startPos.row []] =
              [(st.parent.getD st.startPos.row []).take st.endPos.col] := rfl
          rw [hm] at hfirst
          injection hfirst with hl hls
          subst hl
          rw [List.length_take]
          have hSE : st.startPos.row = st.endPos.row := by omega
          have hSc := hSf.2
          have hEc : st.endPos.col ≤ (st.parent.getD st.startPos.row []).length := by
            rw [hSE]
            exact hEf.2
          omega
        · have hrest : 0 <
              ((st.parent.drop (st.startPos.row + 1)).take (hi - 1)).length := by
            rw [List.length_take, List.length_drop]
            omega
          obtain ⟨y, t, hyt⟩ :=
            List.exists_cons_of_ne_nil (List.length_pos.mp hrest)
          rw [hyt] at hfirst
          have hm : modifyLastL (List.take st.endPos.col)
              (st.parent.getD st.startPos.row [] :: y :: t) =
              st.parent.getD st.startPos.row [] ::
                modifyLastL (List.take st.endPos.col) (y :: t) := rfl
          rw [hm] at hfirst
          injection hfirst with hl hls
          subst hl
          exact hSf.2
      · rw [if_neg hlast] at hfirst
        simp only [id_eq] at hfirst
        injection hfirst with hl hls
        subst hl
        exact hSf.2

theorem regionValidatePos_translated (st : RegionState) (q : Position)
    (hse : Position.leb st.startPos st.endPos = true)
    (hEv : validatePos st.parent st.endPos = .ok ())
    (hqv : validatePos st.parent q = .ok ())
    (hSq : Position.leb st.startPos q = true)
    (hqE : Position.leb q st.endPos = true) :
    regionValidatePos st
      ⟨q.row - st.startPos.row,
        if q.row = st.startPos.row then q.col - st.startPos.col else q.col⟩ =
      .ok () := by
  have hSq' := (leb_iff _ _).1 hSq
  have hqE' := (leb_iff _ _).1 hqE
  have hse' : st.startPos.row ≤ st.endPos.row := by
    have := (leb_iff _ _).1 hse
    omega
  have hPne := validatePos_ok_ne_nil _ _ hqv
  have hqf := (validatePos_ok_iff _ _ hPne).1 hqv
  have hEf := (validatePos_ok_iff _ _ hPne).1 hEv
  have hLq : q.col ≤ (st.parent.getD q.row []).length := hqf.2
  rw [regionValidatePos_ok_iff st _ hse' hEf.1]
  refine ⟨by show q.row - st.startPos.row ≤ _; omega, ?_⟩
  show (if q.row = st.startPos.row then q.col - st.startPos.col else q.col) ≤
    (regionLineAt st (q.row - st.startPos.row)).length
  unfold regionLineAt
  dsimp only
  rw [show st.startPos.row + (q.row - st.startPos.row) = q.row from by omega]
  by_cases hlast : q.row - st.startPos.row + 1 = st.endPos.row - st.startPos.row + 1
  · rw [if_pos hlast]
    have hqrow : q.row = st.endPos.row := by omega
    have hLE : st.endPos.col ≤ (st.parent.getD q.row []).length := by
      rw [hqrow]
      exact hEf.2
    by_cases hfirst : q.row - st.startPos.row = 0
    · rw [if_pos hfirst]
      have hqS : q.row = st.startPos.row := by omega
      rw [if_pos hqS, List.length_drop, List.length_take]
      omega
    · rw [if_neg hfirst, if_neg (by omega), List.length_take]
      omega
  · rw [if_neg hlast]
    by_cases hfirst : q.row - st.startPos.row = 0
    · rw [if_pos hfirst]
      have hqS : q.row = st.startPos.row := by omega
      rw [if_pos hqS, List.length_drop]
      omega
    · rw [if_neg hfirst, if_neg (by omega)]
      exact hLq

theorem regionPosition_ok_of_between (st : RegionState) (q : Position)
    (hse : Position.leb st.startPos st.endPos = true)
    (hEv : validatePos st.parent st.endPos = .ok ())
    (hqv : validatePos st.parent q = .ok ())
    (hSq : Position.leb st.startPos q = true)
    (hqE : Position.leb q st.endPos = true) :
    regionPosition st q = .ok
      ⟨q.row - st.startPos.row,
        if q.row = st.startPos.row then q.col - st.startPos.col else q.col⟩ := by
  have hrval := regionValidatePos_translated st q hse hEv hqv hSq hqE
  have hSq' := (leb_iff _ _).1 hSq
  obtain ⟨qr, qc⟩ := q
  dsimp only at hrval hSq' ⊢
  unfold regionPosition
  dsimp only
  by_cases hq0 : qr = st.startPos.row
  · rw [if_pos hq0] at hrval ⊢
    rw [if_neg (by omega), if_neg (by omega)]
    have harg : (⟨((qr : Int) - (st.startPos.row : Int)).toNat,
        ((qc : Int) - (st.startPos.col : Int)).toNat⟩ : Position) =
        ⟨qr - st.startPos.row, qc - st.startPos.col⟩ := by
      simp only [Position.mk.injEq]
      omega
    rw [harg, hrval]
    simp [hq0]
  · rw [if_neg hq0] at hrval ⊢
    rw [if_neg (by omega), if_neg (by omega)]
    have harg : (⟨((qr : Int) - (st.startPos.row : Int)).toNat,
        ((qc : Int)).toNat⟩ : Position) = ⟨qr - st.startPos.row, qc⟩ := by
      simp only [Position.mk.injEq]
      omega
    rw [harg, hrval]
    simp [hq0]

/-- C3: for a region with `start ≤ end` (both valid in the parent), the two
coordinate translations are mutually inverse: `region_position ∘
real_position` is the identity on region-valid positions, and
`real_position ∘ region_position` is the identity on valid parent
positions `q` with `start ≤ q ≤ end`. -/
theorem region_position_inverse (st : RegionState) (p q : Position)
    (hse : Position.leb st.startPos st.endPos = true)
    (hSv : validatePos st.parent st.startPos = .ok ())
    (hEv : validatePos st.parent st.endPos = .ok ()) :
    (regionValidatePos st p = .ok () →
      regionPosition st (realPosition st p) = .ok p) ∧
      (validatePos st.parent q = .ok () →
        Position.leb st.startPos q = true → Position.leb q st.endPos = true →
        ∃ r, regionPosition st q = .ok r ∧ realPosition st r = q) := by
  constructor
  · intro hval
    obtain ⟨pr, pc⟩ := p
    by_cases hp0 : pr = 0
    · subst hp0
      have hreal : realPosition st ⟨0, pc⟩ =
          ⟨st.startPos.row + 0, st.startPos.col + pc⟩ := by
        unfold realPosition
        rw [if_pos rfl]
      rw [hreal]
      unfold regionPosition
      dsimp only
      rw [if_pos (show st.startPos.row + 0 = st.startPos.row from by omega)]
      rw [if_neg (by omega), if_neg (by omega)]
      have harg : (⟨(((st.startPos.row + 0 : Nat) : Int) -
            (st.startPos.row : Int)).toNat,
          (((st.startPos.col + pc : Nat) : Int) -
            (st.startPos.col : Int)).toNat⟩ : Position) = ⟨0, pc⟩ := by
        simp only [Position.mk.injEq]
        omega
      rw [harg, hval]
    · have hreal : realPosition st ⟨pr, pc⟩ = ⟨st.startPos.row + pr, pc⟩ := by
        unfold realPosition
        rw [if_neg hp0]
      rw [hreal]
      unfold regionPosition
      dsimp only
      rw [if_neg (show ¬st.startPos.row + pr = st.startPos.row from by omega)]
      rw [if_neg (by omega), if_neg (by omega)]
      have harg : (⟨(((st.startPos.row + pr : Nat) : Int) -
            (st.startPos.row : Int)).toNat, ((pc : Nat) : Int).toNat⟩ : Position) =
          ⟨pr, pc⟩ := by
        simp only [Position.mk.injEq]
        omega
      rw [harg, hval]
  · intro hqv hSq hqE
    have hreg := regionPosition_ok_of_between st q hse hEv hqv hSq hqE
    have hSq' := (leb_iff _ _).1 hSq
    obtain ⟨qr, qc⟩ := q
    dsimp only at hreg hSq'
    refine ⟨⟨qr - st.startPos.row,
      if qr = st.startPos.row then qc - st.startPos.col else qc⟩, hreg, ?_⟩
    · unfold realPosition
      dsimp only
      by_cases hq0 : qr = st.startPos.row
      · rw [if_pos hq0, if_pos (show qr - st.startPos.row = 0 from by omega)]
        simp only [Position.mk.injEq]
        omega
      · have hqgt : st.startPos.row < qr := by
          rcases hSq' with h | h
          · exact h
          · exact absurd h.1.symm hq0
        rw [if_neg hq0, if_neg (show ¬qr - st.startPos.row = 0 from by omega)]
        simp only [Position.mk.injEq]
        exact ⟨by omega, trivial⟩

/-- The region `(1,2)–(2,5)` of the four-line demo parent, as constructed
by `init_test_region` in `region/mod.rs`'s tests; the parent cursor starts
at the origin. -/
def demoRegion : RegionState :=
  ⟨splitNL (("First line\nSecond line\nThird line\nFourth line").toList),
    ⟨1, 2⟩, ⟨2, 5⟩, ⟨0, 0⟩⟩

/-- Sanity checks against `test_region_line_count`, `test_region_get_lines`,
`test_region_region_position` and `test_region_real_position` in
`region/mod.rs`. -/
theorem sanity_region_demo :
    regionLineCount demoRegion = .ok 2 ∧
      regionGetLines demoRegion 0 2 =
        .ok [("cond line").toList, ("Third").toList] ∧
      regionGetLine demoRegion 0 = .ok (("cond line").toList) ∧
      regionGetLine demoRegion 1 = .ok (("Third").toList) ∧
      regionPosition demoRegion ⟨2, 1⟩ = .ok ⟨1, 1⟩ ∧
      regionPosition demoRegion ⟨1, 3⟩ = .ok ⟨0, 1⟩ ∧
      regionPosition demoRegion ⟨1, 1⟩ = .error (.colOutOfBounds (-1) 0) ∧
      regionPosition demoRegion ⟨2, 6⟩ = .error (.colOutOfBounds 6 5) ∧
      regionPosition demoRegion ⟨0, 0⟩ = .error (.rowOutOfBounds (-1) 0) ∧
      regionPosition demoRegion ⟨3, 0⟩ = .error (.rowOutOfBounds 2 1) ∧
      realPosition demoRegion ⟨0, 3⟩ = ⟨1, 5⟩ ∧
      realPosition demoRegion ⟨1, 4⟩ = ⟨2, 4⟩ := by
  refine ⟨by decide, by decide, by decide, by decide, by decide, by decide,
    by decide, by decide, by decide, by decide, by decide, by decide⟩

theorem region_line_count_get_lines_witness :
    (Position.leb demoRegion.startPos demoRegion.endPos = true ∧
      validatePos demoRegion.parent demoRegion.startPos = .ok () ∧
      validatePos demoRegion.parent demoRegion.endPos = .ok () ∧
      (0 : Nat) ≤ 2 ∧ 2 ≤ demoRegion.endPos.row - demoRegion.startPos.row + 1) ∧
      (regionLineCount demoRegion =
          .ok (demoRegion.endPos.row - demoRegion.startPos.row + 1) ∧
        regionGetLines demoRegion 0 2 = .ok
          ((if (0 : Nat) = 0
              then modifyHeadL (List.drop demoRegion.startPos.col) else id)
            ((if (2 : Nat) = demoRegion.endPos.row - demoRegion.startPos.row + 1
              then modifyLastL (List.take demoRegion.endPos.col) else id)
              ((demoRegion.parent.drop (0 + demoRegion.startPos.row)).take (2 - 0)))) ∧
        (demoRegion.startPos.row = demoRegion.endPos.row →
          regionGetLines demoRegion 0 1 = .ok
            [((demoRegion.parent.getD demoRegion.startPos.row []).drop
                demoRegion.startPos.col).take
              (demoRegion.endPos.col - demoRegion.startPos.col)]) ∧
        ((0 : Nat) = 0 → ∀ l ls,
          (if (2 : Nat) = demoRegion.endPos.row - demoRegion.startPos.row + 1
            then modifyLastL (List.take demoRegion.endPos.col) else id)
            ((demoRegion.parent.drop (0 + demoRegion.startPos.row)).take (2 - 0)) =
              l :: ls →
          demoRegion.startPos.col ≤ l.length)) :=
  ⟨⟨by decide, by decide, by decide, by decide, by decide⟩,
    region_line_count_get_lines demoRegion 0 2
      (by decide) (by decide) (by decide) (by decide) (by decide)⟩

theorem regionValidatePos_row_err (st : RegionState) (p : Position)
    (hp : p.row > st.endPos.row - st.startPos.row) :
    regionValidatePos st p = .error (.rowOutOfBounds p.row
      ((st.endPos.row - st.startPos.row + 1 - 1 : Nat) : Int)) := by
  unfold regionValidatePos regionLineCount
  dsimp only
  rw [if_pos (by omega)]

theorem regionValidatePos_col_err (st : RegionState) (p : Position)
    (hse : st.startPos.row ≤ st.endPos.row)
    (hE : st.endPos.row < st.parent.length)
    (hrow : p.row ≤ st.endPos.row - st.startPos.row)
    (hcol : p.col > (regionLineAt st p.row).length) :
    regionValidatePos st p = .error (.colOutOfBounds p.col
      ((regionLineAt st p.row).length : Int)) := by
  unfold regionValidatePos regionLineCount
  dsimp only
  rw [if_neg (by omega), regionGetLine_eq st p.row hse hE hrow]
  show (if p.col > (regionLineAt st p.row).length
    then (Except.error (BufErr.colOutOfBounds p.col
      ((regionLineAt st p.row).length : Int)) : Except BufErr Unit)
    else Except.ok ()) = _
  rw [if_pos hcol]

theorem regionLineAt_last_length (st : RegionState)
    (hse : st.startPos.row ≤ st.endPos.row)
    (hEc : st.endPos.col ≤ (st.parent.getD st.endPos.row []).length) :
    (regionLineAt st (st.endPos.row - st.startPos.row)).length =
      st.endPos.col -
        (if st.startPos.row = st.endPos.row then st.startPos.col else 0) := by
  unfold regionLineAt
  dsimp only
  rw [if_pos rfl]
  rw [show st.startPos.row + (st.endPos.row - st.startPos.row) = st.endPos.row
    from by omega]
  by_cases h0 : st.endPos.row - st.startPos.row = 0
  · rw [if_pos h0, List.length_drop, List.length_take, if_pos (by omega)]
    omega
  · rw [if_neg h0, List.length_take, if_neg (by omega)]
    omega

theorem regionPosition_err_left (st : RegionState) (q : Position)
    (hq : Position.ltb q st.startPos = true) :
    ∃ v l, regionPosition st q = .error (.rowOutOfBounds v l) ∨
      regionPosition st q = .error (.colOutOfBounds v l) := by
  have hq' := (ltb_iff _ _).1 hq
  unfold regionPosition
  dsimp only
  rcases hq' with h | ⟨h1, h2⟩
  · refine ⟨(q.row : Int) - st.startPos.row, 0, Or.inl ?_⟩
    rw [if_pos (by omega)]
  · refine ⟨(q.col : Int) - st.startPos.col, 0, Or.inr ?_⟩
    rw [if_pos h1, if_neg (by omega), if_pos (by omega)]

theorem regionPosition_err_right (st : RegionState) (q : Position)
    (hse : Position.leb st.startPos st.endPos = true)
    (hEv : validatePos st.parent st.endPos = .ok ())
    (hqv : validatePos st.parent q = .ok ())
    (hq : Position.ltb st.endPos q = true) :
    ∃ v l, regionPosition st q = .error (.rowOutOfBounds v l) ∨
      regionPosition st q = .error (.colOutOfBounds v l) := by
  have hq' := (ltb_iff _ _).1 hq
  have hse' := (leb_iff _ _).1 hse
  have hPne := validatePos_ok_ne_nil _ _ hqv
  have hqf := (validatePos_ok_iff _ _ hPne).1 hqv
  have hEf := (validatePos_ok_iff _ _ hPne).1 hEv
  have hrowSE : st.startPos.row ≤ st.endPos.row := by omega
  have hrowSq : st.startPos.row ≤ q.row := by omega
  unfold regionPosition
  dsimp only
  by_cases hrow_case : q.row > st.endPos.row
  · by_cases hq0 : q.row = st.startPos.row
    · exact absurd hq0 (by omega)
    · rw [if_neg hq0, if_neg (by omega), if_neg (by omega)]
      have hargpos : (⟨(((q.row : Int) - st.startPos.row)).toNat,
          ((q.col : Int)).toNat⟩ : Position) = ⟨q.row - st.startPos.row, q.col⟩ := by
        simp only [Position.mk.injEq]
        omega
      rw [hargpos]
      rw [regionValidatePos_row_err st _
        (by show q.row - st.startPos.row > _; omega)]
      exact ⟨_, _, Or.inl rfl⟩
  · have hqrow : q.row = st.endPos.row := by omega
    have hqcol : st.endPos.col < q.col := by omega
    have hlenE : (regionLineAt st (st.endPos.row - st.startPos.row)).length =
        st.endPos.col -
          (if st.startPos.row = st.endPos.row then st.startPos.col else 0) :=
      regionLineAt_last_length st hrowSE hEf.2
    by_cases hq0 : q.row = st.startPos.row
    · rw [if_pos hq0, if_neg (by omega), if_neg (by omega)]
      have hargpos : (⟨(((q.row : Int) - st.startPos.row)).toNat,
          (((q.col : Int) - st.startPos.col)).toNat⟩ : Position) =
          ⟨q.row - st.startPos.row, q.col - st.startPos.col⟩ := by
        simp only [Position.mk.injEq]
        omega
      rw [hargpos]
      rw [regionValidatePos_col_err st _ hrowSE hEf.1
        (by show q.row - st.startPos.row ≤ _; omega)
        (by
          show q.col - st.startPos.col > _
          rw [show q.row - st.startPos.row = st.endPos.row - st.startPos.row
            from by omega, hlenE]
          rw [if_pos (by omega)]
          omega)]
      exact ⟨_, _, Or.inr rfl⟩
    · rw [if_neg hq0, if_neg (by omega), if_neg (by omega)]
      have hargpos : (⟨(((q.row : Int) - st.startPos.row)).toNat,
          ((q.col : Int)).toNat⟩ : Position) = ⟨q.row - st.startPos.row, q.col⟩ := by
        simp only [Position.mk.injEq]
        omega
      rw [hargpos]
      rw [regionValidatePos_col_err st _ hrowSE hEf.1
        (by show q.row - st.startPos.row ≤ _; omega)
        (by
          show q.col > _
          rw [show q.row - st.startPos.row = st.endPos.row - st.startPos.row
            from by omega, hlenE]
          rw [if_neg (by omega)]
          omega)]
      exact ⟨_, _, Or.inr rfl⟩

theorem region_position_inverse_witness :
    (Position.leb demoRegion.startPos demoRegion.endPos = true ∧
      validatePos demoRegion.parent demoRegion.startPos = .ok () ∧
      validatePos demoRegion.parent demoRegion.endPos = .ok ()) ∧
      ((regionValidatePos demoRegion ⟨0, 1⟩ = .ok () →
          regionPosition demoRegion (realPosition demoRegion ⟨0, 1⟩) = .ok ⟨0, 1⟩) ∧
        (validatePos demoRegion.parent ⟨2, 1⟩ = .ok () →
          Position.leb demoRegion.startPos ⟨2, 1⟩ = true →
          Position.leb ⟨2, 1⟩ demoRegion.endPos = true →
          ∃ r, regionPosition demoRegion ⟨2, 1⟩ = .ok r ∧
            realPosition demoRegion r = ⟨2, 1⟩)) :=
  ⟨⟨by decide, by decide, by decide⟩,
    region_position_inverse demoRegion ⟨0, 1⟩ ⟨2, 1⟩
      (by decide) (by decide) (by decide)⟩

/-- C10: on a region over a cursor-capable parent, `get_cursor` returns the
parent's cursor translated into region coordinates when it lies within
`[start, end]`; when the parent's cursor lies outside the region's bounds
it returns a `RowOutOfBounds` or `ColOutOfBounds` error — it never
clamps. -/
theorem region_get_cursor_translation (st : RegionState)
    (hse : Position.leb st.startPos st.endPos = true)
    (hEv : validatePos st.parent st.endPos = .ok ())
    (hqv : validatePos st.parent st.pcursor = .ok ()) :
    (Position.leb st.startPos st.pcursor = true →
        Position.leb st.pcursor st.endPos = true →
        regionGetCursor st = .ok
          ⟨st.pcursor.row - st.startPos.row,
            if st.pcursor.row = st.startPos.row
              then st.pcursor.col - st.startPos.col else st.pcursor.col⟩) ∧
      (Position.ltb st.pcursor st.startPos = true ∨
          Position.ltb st.endPos st.pcursor = true →
        ∃ v l, regionGetCursor st = .error (.rowOutOfBounds v l) ∨
          regionGetCursor st = .error (.colOutOfBounds v l)) := by
  have hPne := validatePos_ok_ne_nil _ _ hqv
  have hcur : regionGetCursor st = regionPosition st st.pcursor := by
    unfold regionGetCursor
    rw [getCursor_ok ⟨st.parent, st.pcursor⟩ hPne hqv]
  constructor
  · intro hSq hqE
    rw [hcur]
    exact regionPosition_ok_of_between st st.pcursor hse hEv hqv hSq hqE
  · intro hout
    rw [hcur]
    rcases hout with h | h
    · exact regionPosition_err_left st st.pcursor h
    · exact regionPosition_err_right st st.pcursor hse hEv hqv h

/-- The demo region with the parent's cursor inside the region, at parent
position `(2,1)` (region position `(1,1)`). -/
def demoRegionCur : RegionState :=
  ⟨splitNL (("First line\nSecond line\nThird line\nFourth line").toList),
    ⟨1, 2⟩, ⟨2, 5⟩, ⟨2, 1⟩⟩

theorem region_get_cursor_translation_witness :
    (Position.leb demoRegionCur.startPos demoRegionCur.endPos = true ∧
      validatePos demoRegionCur.parent demoRegionCur.endPos = .ok () ∧
      validatePos demoRegionCur.parent demoRegionCur.pcursor = .ok ()) ∧
      ((Position.leb demoRegionCur.startPos demoRegionCur.pcursor = true →
          Position.leb demoRegionCur.pcursor demoRegionCur.endPos = true →
          regionGetCursor demoRegionCur = .ok
            ⟨demoRegionCur.pcursor.row - demoRegionCur.startPos.row,
              if demoRegionCur.pcursor.row = demoRegionCur.startPos.row
                then demoRegionCur.pcursor.col - demoRegionCur.startPos.col
                else demoRegionCur.pcursor.col⟩) ∧
        (Position.ltb demoRegionCur.pcursor demoRegionCur.startPos = true ∨
            Position.ltb demoRegionCur.endPos demoRegionCur.pcursor = true →
          ∃ v l, regionGetCursor demoRegionCur = .error (.rowOutOfBounds v l) ∨
            regionGetCursor demoRegionCur = .error (.colOutOfBounds v l))) :=
  ⟨⟨by decide, by decide, by decide⟩,
    region_get_cursor_translation demoRegionCur (by decide) (by decide) (by decide)⟩

/-- Sanity checks for the region cursor: inside the region the cursor
translates to region coordinates; at parent position `(0,0)` — before the
region — it is a `RowOutOfBounds` error, not a clamped position. -/
theorem sanity_region_cursor :
    regionGetCursor demoRegionCur = .ok ⟨1, 1⟩ ∧
      regionGetCursor demoRegion = .error (.rowOutOfBounds (-1) 0) :=
  ⟨by decide, by decide⟩

/-- A region whose marks have drifted out of order on the same row:
`start = (0,5)`, `end = (0,2)` over the parent `"First line"`. -/
def invRegion : RegionState :=
  ⟨splitNL (("First line").toList), ⟨0, 5⟩, ⟨0, 2⟩, ⟨0, 0⟩⟩

/-- C9 counterexample: on `invRegion` the marks satisfy
`end.position < start.position`, yet `line_count` succeeds with `1`
instead of returning an error — so not every region operation reports the
violated `start ≤ end` invariant as an error. -/
theorem region_inverted_line_count_ok :
    Position.ltb invRegion.endPos invRegion.startPos = true ∧
      regionLineCount invRegion = .ok 1 :=
  ⟨by decide, by decide⟩

/-- C9 (amended): region operations perform no `start ≤ end` check, and
the violated invariant is not reported as an error by `line_count`:
whenever `start.row ≤ end.row` it succeeds and returns
`end.row − start.row + 1`, even when `start.position > end.position`
within the row.  (No region operation returns the claimed error on such
a region: the reads built on `line_count` — `get_lines`, `get_line`,
`get_content` — abort in `String::split_off(start.col)` after truncating
the line to `end.col`, and when `end.row < start.row` the `usize`
subtraction in `line_count` itself underflows; Rust panics, not error
values, which the `Except`-valued model does not express — so the
amended claim is scoped to `line_count`.) -/
theorem region_line_count_unchecked (st : RegionState)
    (h : st.startPos.row ≤ st.endPos.row) :
    regionLineCount st = .ok (st.endPos.row - st.startPos.row + 1) := rfl

theorem region_line_count_unchecked_witness :
    invRegion.startPos.row ≤ invRegion.endPos.row ∧
      regionLineCount invRegion =
        .ok (invRegion.endPos.row - invRegion.startPos.row + 1) :=
  ⟨by decide, region_line_count_unchecked invRegion (by decide)⟩

end Eel
